import Mathlib

/-!
Verification development for `mainSetup.c` (a small interactive shell)

Shallow embedding of the job registry (`BgProcNode`, `addBgProc`, `removeBgProc`,
`printBgProcList`), of the tokenizer `setup`, of the path resolver
`get_executable_directory` and of one iteration of the loop in `main`.

Modelling conventions
* A C string is the list of its characters before the terminating NUL.
* A pointer to a heap node is a natural number (`Ptr`).  The singly linked list that
  starts at `bgProcHead` is a Lean list of cells `(address, contents)`; the `next`
  field of a cell is the list succession.
* The kernel side of `waitpid` is a process table, passed explicitly.
* `printBgProcList` reads `curNode->next` after `removeBgProc` has freed `curNode`;
  the embedding takes that read to yield the link the node held when it was unlinked
  (the traversal runs over the nodes reachable from `head` at the call).
* The storage that `get_executable_directory` writes to is bounded: a heap block holds
  the bytes the allocator makes usable for the requested size, the array `variables`
  holds the elements its reserved storage has room for, and `directory` holds 50 bytes.
  A store outside its storage is a fault: the execution has no defined continuation.
-/

namespace MainSetup

/-! ## Data model -/

/-- The constant `MAX_LINE`. -/
def MAX_LINE : Nat := 80

/-- Address of a heap node (`BgProcNode *`). -/
abbrev Ptr := Nat

/-- The fields `index`, `pid`, `command` of `struct bgProcNodeStruct`; the field `next`
is the succession of cells in a `Registry`. -/
structure BgProcNode where
  index : Int
  pid : Int
  command : List Char
deriving DecidableEq, Repr

/-- The linked list hanging off `bgProcHead`: heap cells in link order. -/
abbrev Registry := List (Ptr × BgProcNode)

/-- Contents of a node just returned by `malloc`.  They are indeterminate in C; `nodecpy`
overwrites every field the model tracks before any of them is read. -/
def mallocNode : BgProcNode := ⟨0, 0, []⟩

/-- The function `nodecpy(dest, src)`: the contents of `dest` afterwards. -/
def nodecpy (dest src : BgProcNode) : BgProcNode :=
  { dest with command := src.command, index := src.index, pid := src.pid }

/-- The function `addBgProc(node)`, where `p` is the address `malloc` returns: walk to the
last cell and link a fresh copy of `node` behind it (or make it the head). -/
def addBgProc (p : Ptr) (node : BgProcNode) : Registry → Registry
  | [] => [(p, nodecpy mallocNode node)]
  | curNode :: next => curNode :: addBgProc p node next

/-- The function `removeBgProc(node)`: unlink the first cell whose address is `node`. -/
def removeBgProc (node : Ptr) : Registry → Registry
  | [] => []
  | curNode :: next => if curNode.1 = node then next else curNode :: removeBgProc node next

/-! ## The kernel side of `waitpid(pid, _, WNOHANG)` -/

/-- What the kernel knows about the process a pid argument designates. -/
inductive ProcState where
  /-- a child with no reportable state change: the query returns 0 -/
  | running
  /-- a child with a pending state change (it terminated): the query returns its pid
  and reaps it -/
  | changed
  /-- no such waitable child: the query fails with -1 -/
  | nochild
deriving DecidableEq, Repr

/-- The process table. -/
abbrev ProcTable := Int → ProcState

/-- The call `waitpid(pid, _, WNOHANG)`: return value and the table afterwards. -/
def waitpid (t : ProcTable) (pid : Int) : Int × ProcTable :=
  match t pid with
  | .running => (0, t)
  | .changed => (pid, fun q => if q = pid then .nochild else t q)
  | .nochild => (-1, t)

/-! ## The sweep `printBgProcList` -/

/-- Variables of `printBgProcList` during the `while (curNode != NULL)` loop: the two
local lists (their nodes are private copies, so only contents are kept), the global
`bgProcHead`, the process table, and the return values of the two status queries made
for each node (debug query first, then the deciding one). -/
structure SweepState where
  table : ProcTable
  bgProcHead : Registry
  running : List BgProcNode
  finished : List BgProcNode
  queries : List (Int × Int)

/-- One iteration of the `while` loop of `printBgProcList`, at the node `curNode`. -/
def sweepStep (s : SweepState) (curNode : Ptr × BgProcNode) : SweepState :=
  let d := waitpid s.table curNode.2.pid
  let r := waitpid d.2 curNode.2.pid
  if r.1 ≠ 0 then
    { table := r.2
      bgProcHead := removeBgProc curNode.1 s.bgProcHead
      running := s.running
      finished := s.finished ++ [nodecpy mallocNode curNode.2]
      queries := s.queries ++ [(d.1, r.1)] }
  else
    { table := r.2
      bgProcHead := s.bgProcHead
      running := s.running ++ [nodecpy mallocNode curNode.2]
      finished := s.finished
      queries := s.queries ++ [(d.1, r.1)] }

/-- The loop of `printBgProcList(head)` run over the nodes reachable from `head`, with the
global `bgProcHead` and the process table passed explicitly. -/
def sweepLoop (s : SweepState) : Registry → SweepState
  | [] => s
  | curNode :: next => sweepLoop (sweepStep s curNode) next

/-- The function `printBgProcList(head)` as `main` calls it (`head` is `bgProcHead`): the
state when the classification loop ends.  The two print loops that follow list the
entries of `running` and `finished` whose pid is not 0 and free them. -/
def printBgProcList (t : ProcTable) (head : Registry) : SweepState :=
  sweepLoop ⟨t, head, [], [], []⟩ head

/-- What the deciding query `waitpid(curNode->pid, NULL, WNOHANG)` returns for a pid when
the sweep reaches it with table `t`: it runs right after the debug query. -/
def statusCheck (t : ProcTable) (pid : Int) : Int :=
  (waitpid (waitpid t pid).2 pid).1

/-! ## The tokenizer `setup` -/

/-- The character `'\0'`. -/
def NUL : Char := Char.ofNat 0

/-- The value of `errno` after an interrupted system call. -/
def EINTR : Int := 4

/-- What `read(STDIN_FILENO, inputBuffer, MAX_LINE)` did: it stored `data` at the start of
the buffer and returned `data.length`, or it returned -1 with the given `errno`. -/
inductive ReadResult where
  | bytes (data : List Char)
  | fail (errno : Int)
deriving DecidableEq, Repr

/-- The memory `setup` works on and its locals.  `inputBuffer` is the array of `main`;
an entry of `args` is `none` for `NULL` and `some k` for `&inputBuffer[k]`.
`bufWrites` and `argWrites` record, in order, every index of `inputBuffer` and of
`args` that `setup` stores to (a store outside `inputBuffer` changes no cell of it). -/
structure SetupState where
  inputBuffer : List Char
  args : List (Option Nat)
  background : Int
  ct : Nat
  start : Int
  bufWrites : List Int
  argWrites : List Nat
deriving DecidableEq, Repr

/-- The store `inputBuffer[k] = c`. -/
def storeBuf (s : SetupState) (k : Int) (c : Char) : SetupState :=
  { s with
    inputBuffer := if 0 ≤ k then s.inputBuffer.set k.toNat c else s.inputBuffer
    bufWrites := s.bufWrites ++ [k] }

/-- The store `args[ct] = p`. -/
def storeArg (s : SetupState) (p : Option Nat) : SetupState :=
  { s with args := s.args.set s.ct p, argWrites := s.argWrites ++ [s.ct] }

/-- The statements `if (start != -1) { args[ct] = &inputBuffer[start]; ct++; }`. -/
def closeToken (s : SetupState) : SetupState :=
  if s.start ≠ -1 then
    let s1 := storeArg s (some s.start.toNat)
    { s1 with ct := s1.ct + 1 }
  else s

/-- The body of the `for` loop of `setup` at index `i`: the `switch (inputBuffer[i])`. -/
def setupStep (s : SetupState) (i : Nat) : SetupState :=
  let c := s.inputBuffer.getD i NUL
  if c = ' ' ∨ c = '\t' then
    let s1 := storeBuf (closeToken s) i NUL
    { s1 with start := -1 }
  else if c = '\n' then
    storeArg (storeBuf (closeToken s) i NUL) none
  else
    let s1 := if s.start = -1 then { s with start := i } else s
    if c = '&' then storeBuf { s1 with background := 1 } ((i : Int) - 1) NUL else s1

/-- How a call of `setup` ends: in `exit(status)`, or by returning. -/
inductive SetupOutcome where
  | exited (status : Int)
  | returned (s : SetupState)
deriving DecidableEq, Repr

/-- The function `setup(inputBuffer, args, background)`. -/
def setup (r : ReadResult) (inputBuffer : List Char) (args : List (Option Nat))
    (background : Int) : SetupOutcome :=
  let length : Int := match r with
    | .bytes data => data.length
    | .fail _ => -1
  let buf := match r with
    | .bytes data => data ++ inputBuffer.drop data.length
    | .fail _ => inputBuffer
  let errno := match r with
    | .bytes _ => 0
    | .fail e => e
  if length = 0 then .exited 0
  else if length < 0 ∧ errno ≠ EINTR then .exited (-1)
  else
    let s0 : SetupState := ⟨buf, args, background, 0, -1, [], []⟩
    let s := (List.range length.toNat).foldl setupStep s0
    .returned (storeArg s none)

/-! ## The path resolver -/

/-- The successive results of `strtok(path, ":")`, `strtok(NULL, ":")`, ... up to the first
`NULL`: the non-empty maximal runs of characters other than `':'`.  `cur` is the run
being scanned. -/
def strtokAll : List Char → List Char → List (List Char)
  | cur, [] => if cur = [] then [] else [cur]
  | cur, c :: cs =>
    if c = ':' then (if cur = [] then strtokAll [] cs else cur :: strtokAll [] cs)
    else strtokAll (cur ++ [c]) cs

/-- The function `is_in_directory(command, directory)`; `readdir` gives the entry names of
a directory that `opendir` can open. -/
def is_in_directory (readdir : List Char → Option (List (List Char)))
    (command directory : List Char) : Bool :=
  match readdir directory with
  | some names => names.any (fun d_name => d_name = command)
  | none => false

/-- The locals of `get_executable_directory` after its `while (token != NULL)` loop:
`path_length` is the declared size of the array `variables`, and `variablesArr` lists the
strings stored at `variables[0]`, ..., `variables[path_index - 1]`. -/
structure PathScan where
  path_length : Nat
  variablesArr : List (List Char)
deriving DecidableEq, Repr

/-- The first part of `get_executable_directory`, on the value of `PATH`. -/
def scanPath (path : List Char) : PathScan :=
  { path_length := path.count ':', variablesArr := strtokAll [] path }

/-- The value `path_index` after the `while` loop. -/
def PathScan.path_index (s : PathScan) : Nat := s.variablesArr.length

/-- What the platform gives the storage that `get_executable_directory` obtains.
`usable n` is the number of bytes that can be stored in the block `malloc(n)` returns
without touching memory that belongs to something else; `slots n` is the number of
elements that the storage reserved for an array declared `char *variables[n]` has room
for.  In the strictest reading of C both are the identity. -/
structure MemEnv where
  usable : Nat → Nat
  slots : Nat → Nat

/-- The size of the array `char directory[50]` of `main`. -/
def DIRECTORY_SIZE : Nat := 50

/-- The pair `malloc(sizeof(char) * strlen(s))`, `strcpy(block, s)`: the copy stores the
`strlen(s)` characters of `s` and the closing NUL; `true` when all of them land inside the
block. -/
def strcpyFits (mem : MemEnv) (s : List Char) : Bool :=
  decide (s.length + 1 ≤ mem.usable s.length)

/-- The `while (token != NULL)` loop of `get_executable_directory` on the remaining
tokens, `path_index` being the index of the next store: the strings stored in
`variables`, or `none` when the store `variables[path_index] = ...` falls outside the
array or the `strcpy` of a token leaves its block. -/
def storeTokens (mem : MemEnv) (path_length : Nat) : List (List Char) → Nat →
    Option (List (List Char))
  | [], _ => some []
  | token :: rest, path_index =>
    if path_index < mem.slots path_length ∧ strcpyFits mem token = true then
      (storeTokens mem path_length rest (path_index + 1)).map (fun vs => token :: vs)
    else none

/-- The final `for` loop of `get_executable_directory`.  The result `some (some d)` is the
return value 1 with the string `d` in `directory`, `some none` is the return value 0, and
`none` is the fault of `strcpy` and `strcat` storing past the 50 bytes of `directory`. -/
def searchDirs (readdir : List Char → Option (List (List Char))) (command : List Char) :
    List (List Char) → Option (Option (List Char))
  | [] => some none
  | v :: vs =>
    if is_in_directory readdir command v then
      if (v ++ ['/'] ++ command).length + 1 ≤ DIRECTORY_SIZE then
        some (some (v ++ ['/'] ++ command))
      else none
    else searchDirs readdir command vs

/-- The function `get_executable_directory(directory, command)`; `PATH` is the result of
`getenv("PATH")`.  The outer `none` is a fault: `strlen(NULL)`, or a store outside the
block of `path`, outside the array `variables`, outside the block of a token or outside
`directory`.  The result `some none` is the return value 0, and `some (some d)` is the
return value 1 with `d` stored in `directory`. -/
def get_executable_directory (mem : MemEnv) (PATH : Option (List Char))
    (readdir : List Char → Option (List (List Char))) (command : List Char) :
    Option (Option (List Char)) :=
  match PATH with
  | none => none
  | some path_env =>
    if strcpyFits mem path_env = true then
      match storeTokens mem (scanPath path_env).path_length (scanPath path_env).variablesArr 0
        with
      | none => none
      | some stored => searchDirs readdir command stored
    else none

/-! ## One iteration of the loop in `main` -/

/-- The variables of `main` that live across iterations, with the global `bgProcHead`. -/
structure ShellState where
  bgProcHead : Registry
  inputBuffer : List Char
  args : List (Option Nat)
deriving DecidableEq, Repr

/-- What the environment supplies during one iteration: the result of `read`, the value of
`PATH`, the directory contents, the return value of `fork`, the indeterminate initial
contents of the local `newBgProc`, the address the next `malloc` returns, the process
table seen by `ps_all`, and the storage the path resolver gets. -/
structure StepEnv where
  read : ReadResult
  PATH : Option (List Char)
  readdir : List Char → Option (List (List Char))
  fork : Int
  newBgProc : BgProcNode
  malloc : Ptr
  table : ProcTable
  mem : MemEnv

/-- The loop `while (args[argIndex][0] != '&') argIndex++;` started at `argIndex` on the
slots of `args` from there on: the final `argIndex`, or `none` when it dereferences
`NULL` or leaves the array. -/
def findAmpersand (inputBuffer : List Char) : List (Option Nat) → Nat → Option Nat
  | [], _ => none
  | none :: _, _ => none
  | some k :: rest, argIndex =>
    if inputBuffer.getD k NUL = '&' then some argIndex
    else findAmpersand inputBuffer rest (argIndex + 1)

/-- The block `if (background) { ... args[argIndex] = NULL; }` of `main`. -/
def stripAmpersand (inputBuffer : List Char) (args : List (Option Nat)) (background : Int) :
    Option (List (Option Nat)) :=
  if background ≠ 0 then
    (findAmpersand inputBuffer args 0).map (fun argIndex => args.set argIndex none)
  else some args

/-- The loop `for (i = 0; s[i]; i++) s[i] = tolower(s[i]);` on the bytes from `s` to the end
of the buffer: those bytes afterwards, or `none` when no NUL stops the loop inside the
buffer. -/
def tolowerLoop : List Char → Option (List Char)
  | [] => none
  | c :: cs => if c = NUL then some (c :: cs) else (tolowerLoop cs).map (fun t => c.toLower :: t)

/-- The C string that starts at `inputBuffer[k]`, `none` when no NUL ends it inside the
buffer. -/
def cstrAt (inputBuffer : List Char) (k : Nat) : Option (List Char) :=
  if NUL ∈ inputBuffer.drop k then some ((inputBuffer.drop k).takeWhile (fun c => c ≠ NUL))
  else none

/-- The argument vector `args[0]`, `args[1]`, ... up to the first `NULL`, as strings. -/
def argStrings (inputBuffer : List Char) : List (Option Nat) → List (List Char)
  | [] => []
  | none :: _ => []
  | some k :: rest =>
    (inputBuffer.drop k).takeWhile (fun c => c ≠ NUL) :: argStrings inputBuffer rest

/-- The state of `main` once the command line is read, the `&` slot cleared and `args[0]`
lowercased. -/
structure Parsed where
  inputBuffer : List Char
  args : List (Option Nat)
  background : Int
  command : List Char
deriving DecidableEq, Repr

/-- How the first part of an iteration ends. -/
inductive ParseOutcome where
  | exited (status : Int)
  | fault
  | parsed (p : Parsed)
deriving DecidableEq, Repr

/-- From `background = 0` to the end of the `tolower` loop of `main`. -/
def parseLine (r : ReadResult) (st : ShellState) : ParseOutcome :=
  match setup r st.inputBuffer st.args 0 with
  | .exited status => .exited status
  | .returned s =>
    match stripAmpersand s.inputBuffer s.args s.background with
    | none => .fault
    | some args =>
      match args.head? with
      | some (some k) =>
        match tolowerLoop (s.inputBuffer.drop k) with
        | none => .fault
        | some low =>
          let buf := s.inputBuffer.take k ++ low
          .parsed ⟨buf, args, s.background, low.takeWhile (fun c => c ≠ NUL)⟩
      | _ => .fault

/-- How one iteration of the loop of `main` ends for the process that runs it. -/
inductive StepOutcome where
  /-- the process called `exit(status)` inside `setup` -/
  | exited (status : Int)
  /-- the process dereferenced `NULL` or stored outside an array or a heap block: from
  there on the execution has no defined continuation -/
  | fault
  /-- child side of `fork`: `execv(directory, args)` replaced the program -/
  | execv (directory : List Char) (argv : List (List Char))
  /-- child side of `fork`: it printed "Command not found." and goes on looping -/
  | notFound (st : ShellState)
  /-- the iteration is over and the loop goes on -/
  | next (st : ShellState)
deriving DecidableEq, Repr

/-- The `else` branch of the command dispatch in `main`: resolve, `fork`, then `execv` in
the child, and in the parent either wait or register the job.  The foreground wait
`waitpid(pid, NULL, 0)` is taken at its return; it stores to no variable of `main`.  The
field `index` of the local `newBgProc` is never assigned, so the node passed to
`addBgProc` carries the indeterminate value the local started with. -/
def launch (e : StepEnv) (st : ShellState) (p : Parsed) : StepOutcome :=
  match get_executable_directory e.mem e.PATH e.readdir p.command with
  | none => .fault
  | some found =>
    let st1 : ShellState := ⟨st.bgProcHead, p.inputBuffer, p.args⟩
    if e.fork = 0 then
      match found with
      | some directory => .execv directory (argStrings p.inputBuffer p.args)
      | none => .notFound st1
    else if p.background = 0 then .next st1
    else
      match cstrAt p.inputBuffer 0 with
      | none => .fault
      | some line =>
        let newBgProc : BgProcNode := { e.newBgProc with pid := e.fork, command := line }
        .next { st1 with bgProcHead := addBgProc e.malloc newBgProc st.bgProcHead }

/-- One iteration of the `while (1)` loop of `main`. -/
def mainStep (e : StepEnv) (st : ShellState) : StepOutcome :=
  match parseLine e.read st with
  | .exited status => .exited status
  | .fault => .fault
  | .parsed p =>
    if p.command = "ps_all".toList then
      .next ⟨(printBgProcList e.table st.bgProcHead).bgProcHead, p.inputBuffer, p.args⟩
    else if p.command = "search".toList then .next ⟨st.bgProcHead, p.inputBuffer, p.args⟩
    else if p.command = "bookmark".toList then .next ⟨st.bgProcHead, p.inputBuffer, p.args⟩
    else launch e st p

/-! ## Sequences of calls on the registry -/

/-- The empty registry `bgProcHead = NULL` followed by one `addBgProc` call per element of
`jobs` (address returned by `malloc`, node passed), in order. -/
def registerAll (jobs : List (Ptr × BgProcNode)) : Registry :=
  jobs.foldl (fun reg j => addBgProc j.1 j.2 reg) []

/-- A call on the registry: `addBgProc` (with the address `malloc` returns),
`removeBgProc`, or `printBgProcList(bgProcHead)` under a process table. -/
inductive RegOp where
  | register (p : Ptr) (node : BgProcNode)
  | unregister (node : Ptr)
  | sweep (t : ProcTable)

/-- The registry after one call. -/
def runOp (reg : Registry) : RegOp → Registry
  | .register p node => addBgProc p node reg
  | .unregister node => removeBgProc node reg
  | .sweep t => (printBgProcList t reg).bgProcHead

/-- The lists (running, finished) built by a call: none unless it is a sweep. -/
def reportOf (reg : Registry) : RegOp → List (List BgProcNode × List BgProcNode)
  | .sweep t => [((printBgProcList t reg).running, (printBgProcList t reg).finished)]
  | _ => []

/-- The (running, finished) lists of the sweeps among the calls `ops`, made in order
starting from the registry `reg`. -/
def reports : Registry → List RegOp → List (List BgProcNode × List BgProcNode)
  | _, [] => []
  | reg, op :: ops => reportOf reg op ++ reports (runOp reg op) ops

/-! ## Sample data -/

/-- A process table: 102 has terminated, 103 is not a waitable child, the rest run. -/
def exTable : ProcTable := fun pid =>
  if pid = 102 then .changed else if pid = 103 then .nochild else .running

/-- A registry of four jobs. -/
def exRegistry : Registry :=
  [(1, ⟨0, 101, "sleep".toList⟩), (2, ⟨0, 102, "ls".toList⟩),
   (3, ⟨0, 103, "cat".toList⟩), (4, ⟨0, 104, "top".toList⟩)]

/-- A process table in which every process runs. -/
def allRunning : ProcTable := fun _ => .running

/-- The registry a process continues with after an iteration (empty when it does not
continue). -/
def StepOutcome.registry : StepOutcome → Registry
  | .next st => st.bgProcHead
  | .notFound st => st.bgProcHead
  | _ => []

/-- Successive iterations of the loop of `main`, one per element of `es`, for as long as
the process goes on to the next prompt. -/
def runSteps : List StepEnv → ShellState → StepOutcome
  | [], st => .next st
  | e :: es, st =>
    match mainStep e st with
    | .next st1 => runSteps es st1
    | out => out

/-- The shell at start-up: no job, and some bytes in the uninitialised arrays. -/
def exShell : ShellState := ⟨[], List.replicate 80 'x', List.replicate 41 none⟩

/-- A file system in which `/bin` holds `sleep` and `ls` and nothing else can be opened. -/
def exReaddir : List Char → Option (List (List Char)) := fun d =>
  if d = "/bin".toList then some ["sleep".toList, "ls".toList] else none

/-- Storage as a 64-bit machine with the GNU allocator gives it: a heap block holds 24, 40,
56, ... bytes (the request rounded up), and the storage of an array on the stack is
padded to a multiple of 16 bytes, the size of two pointers. -/
def exMem : MemEnv :=
  ⟨fun n => max 24 ((n + 23) / 16 * 16 - 8), fun n => (n + 1) / 2 * 2⟩

/-- An iteration that reads `line`, with `PATH=/usr/bin:/bin`, in which `fork` returns
`pid`, the local `newBgProc` starts with index 7, `malloc` returns `p`, and storage is as
in `exMem`. -/
def exEnv (line : List Char) (pid : Int) (p : Ptr) : StepEnv :=
  ⟨.bytes line, some "/usr/bin:/bin".toList, exReaddir, pid, ⟨7, 0, []⟩, p, allRunning, exMem⟩

/-- A search path of 56 characters with five entries. -/
def samplePath : List Char :=
  "/usr/local/bin:/usr/bin:/bin:/usr/local/games:/usr/games".toList

/-- A file system in which `/bin` holds `ls` and `sleep`, `/usr/games` holds `fortune`, and
nothing else can be opened. -/
def sampleReaddir : List Char → Option (List (List Char)) := fun d =>
  if d = "/bin".toList then some ["ls".toList, "sleep".toList]
  else if d = "/usr/games".toList then some ["fortune".toList]
  else none

/-- The parsed command of a parse that succeeded. -/
def ParseOutcome.get : ParseOutcome → Parsed
  | .parsed p => p
  | _ => ⟨[], [], 0, []⟩

/-! ## Tokenization as `main` uses it, and the words of the specification -/

/-- How the tokenization of a line ends: `setup` exits the program, the block of `main`
that clears the `&` slot faults, or the argument vector is ready. -/
inductive TokenizeOutcome where
  | exited (status : Int)
  | fault
  | tokens (argv : List (List Char)) (background : Int)
deriving DecidableEq, Repr

/-- The function `setup` followed by the block `if (background) { ... }` of `main`: the
strings `args[0]`, `args[1]`, ... up to the first `NULL`, and the background flag. -/
def tokenizeLine (r : ReadResult) (inputBuffer : List Char) (args : List (Option Nat)) :
    TokenizeOutcome :=
  match setup r inputBuffer args 0 with
  | .exited status => .exited status
  | .returned s =>
    match stripAmpersand s.inputBuffer s.args s.background with
    | none => .fault
    | some args1 => .tokens (argStrings s.inputBuffer args1) s.background

/-- The indices of `args` that a call of `setup` stored to. -/
def SetupOutcome.argWrites : SetupOutcome → List Nat
  | .returned s => s.argWrites
  | .exited _ => []

/-- The indices of `inputBuffer` that a call of `setup` stored to. -/
def SetupOutcome.bufWrites : SetupOutcome → List Int
  | .returned s => s.bufWrites
  | .exited _ => []

/-- The argument separators of `setup`: space and tab. -/
def isSeparator (c : Char) : Bool := c = ' ' || c = '\t'

/-- The words of the specification for the tokens of a line (its newline left out): the
maximal non-empty runs of characters other than space and tab, in order. -/
def specTokens (line : List Char) : List (List Char) :=
  (line.splitOnP isSeparator).filter (fun t => t ≠ [])

/-- The runs of characters that `p` does not separate, scanned from left to right; `cur`
is the run being read. -/
def splitRuns (p : Char → Bool) : List Char → List Char → List (List Char)
  | cur, [] => if cur = [] then [] else [cur]
  | cur, c :: cs =>
    if p c then (if cur = [] then splitRuns p [] cs else cur :: splitRuns p [] cs)
    else splitRuns p (cur ++ [c]) cs

/-- The words of the specification for the entries of a colon-delimited search path, from
left to right (an empty entry names no directory). -/
def specPathEntries (path : List Char) : List (List Char) :=
  (path.splitOn ':').filter (fun d => d ≠ [])

/-- The words of the specification: the directory has an entry with exactly that name. -/
def hasEntry (readdir : List Char → Option (List (List Char))) (directory command : List Char) :
    Prop :=
  ∃ names, readdir directory = some names ∧ command ∈ names

/-- In the buffer contents `B`, the C string that starts at offset `k` is `tok`, and the
NUL that ends it lies inside `B`. -/
def TokAt (B : List Char) (k : Nat) (tok : List Char) : Prop :=
  NUL ∉ tok ∧ ∃ rest, B.drop k = tok ++ NUL :: rest

/-- Invariant of the loop of `setup` while it scans a stretch without newline and `&`.
`P` is the part of the buffer already examined (as it is now), `tail` the part still to
examine followed by the rest of the buffer, `kt` the arguments stored so far (offset and
string), `cur` the characters of the argument being read, `L` the number of slots of
`args`, and `bg` the background flag. -/
structure ScanInv (L : Nat) (bg : Int) (s : SetupState) (P tail : List Char)
    (kt : List (Nat × List Char)) (cur : List Char) : Prop where
  buf : s.inputBuffer = P ++ tail
  args : ∃ R, s.args = kt.map (fun p => some p.1) ++ R
  ct : s.ct = kt.length
  len : s.args.length = L
  tok : ∀ p ∈ kt, TokAt P p.1 p.2
  bound : 2 * kt.length + (if cur = [] then 0 else 1) ≤ P.length
  opn : (cur = [] ∧ s.start = -1) ∨
    (cur ≠ [] ∧ NUL ∉ cur ∧ ∃ P0, P = P0 ++ cur ∧ s.start = (P0.length : Int))
  bg : s.background = bg

/-! ## Basic facts about the registry operations -/

theorem nodecpy_eq (dest src : BgProcNode) : nodecpy dest src = src := rfl

theorem addBgProc_eq_append (p : Ptr) (node : BgProcNode) (reg : Registry) :
    addBgProc p node reg = reg ++ [(p, node)] := by
  induction reg with
  | nil => rfl
  | cons c l ih => simp [addBgProc, ih]

theorem removeBgProc_of_not_mem (node : Ptr) (reg : Registry)
    (h : node ∉ reg.map Prod.fst) : removeBgProc node reg = reg := by
  induction reg with
  | nil => rfl
  | cons c l ih =>
    simp only [List.map_cons, List.mem_cons, not_or] at h
    simp [removeBgProc, Ne.symm h.1, ih h.2]

theorem removeBgProc_append (node : Ptr) (l1 : Registry) (c : Ptr × BgProcNode)
    (l2 : Registry) (hc : c.1 = node) (h : node ∉ l1.map Prod.fst) :
    removeBgProc node (l1 ++ c :: l2) = l1 ++ l2 := by
  induction l1 with
  | nil => simp [removeBgProc, hc]
  | cons d l ih =>
    simp only [List.map_cons, List.mem_cons, not_or] at h
    simp [removeBgProc, Ne.symm h.1, ih h.2]

theorem removeBgProc_sublist (node : Ptr) (reg : Registry) :
    (removeBgProc node reg).Sublist reg := by
  induction reg with
  | nil => exact List.Sublist.refl _
  | cons c l ih =>
    unfold removeBgProc
    split
    · exact List.sublist_cons_self c l
    · exact ih.cons₂ c

/-! ## Facts about the status queries -/

theorem statusCheck_eq (t : ProcTable) (pid : Int) :
    statusCheck t pid = if t pid = .running then 0 else -1 := by
  unfold statusCheck
  cases h : t pid <;> simp [waitpid, h]

theorem statusCheck_eq_zero_iff (t : ProcTable) (pid : Int) :
    statusCheck t pid = 0 ↔ t pid = .running := by
  rw [statusCheck_eq]
  split <;> simp [*]

theorem waitpid_running_iff (t : ProcTable) (pid q : Int) :
    (waitpid t pid).2 q = .running ↔ t q = .running := by
  unfold waitpid
  cases h : t pid
  · simp
  · by_cases hq : q = pid
    · subst hq
      simp [h]
    · simp [hq]
  · simp

theorem statusCheck_congr (t u : ProcTable) (h : ∀ q, u q = .running ↔ t q = .running)
    (pid : Int) : statusCheck u pid = statusCheck t pid := by
  rw [statusCheck_eq, statusCheck_eq]
  by_cases ht : t pid = .running
  · simp [ht, (h pid).2 ht]
  · have hu : ¬ u pid = .running := fun hu => ht ((h pid).1 hu)
    simp [ht, hu]

theorem sweepStep_table (s : SweepState) (c : Ptr × BgProcNode) (q : Int) :
    (sweepStep s c).table q = .running ↔ s.table q = .running := by
  have h2 := waitpid_running_iff (waitpid s.table c.2.pid).2 c.2.pid q
  have h1 := waitpid_running_iff s.table c.2.pid q
  have ht : (sweepStep s c).table = (waitpid (waitpid s.table c.2.pid).2 c.2.pid).2 := by
    simp only [sweepStep]
    split <;> rfl
  rw [ht]
  exact h2.trans h1

theorem sweepStep_of_running (s : SweepState) (c : Ptr × BgProcNode)
    (h : statusCheck s.table c.2.pid = 0) :
    (sweepStep s c).bgProcHead = s.bgProcHead ∧
    (sweepStep s c).running = s.running ++ [c.2] ∧
    (sweepStep s c).finished = s.finished ∧
    (sweepStep s c).queries.map Prod.snd = s.queries.map Prod.snd ++ [0] := by
  unfold statusCheck at h
  simp [sweepStep, h, nodecpy_eq]

theorem sweepStep_of_not_running (s : SweepState) (c : Ptr × BgProcNode)
    (h : statusCheck s.table c.2.pid ≠ 0) :
    (sweepStep s c).bgProcHead = removeBgProc c.1 s.bgProcHead ∧
    (sweepStep s c).running = s.running ∧
    (sweepStep s c).finished = s.finished ++ [c.2] ∧
    (sweepStep s c).queries.map Prod.snd =
      s.queries.map Prod.snd ++ [statusCheck s.table c.2.pid] := by
  unfold statusCheck at h
  simp [sweepStep, h, nodecpy_eq, statusCheck]

/-! ## The loop of the sweep -/

theorem sweepLoop_table (s : SweepState) (l : Registry) (q : Int) :
    (sweepLoop s l).table q = .running ↔ s.table q = .running := by
  induction l generalizing s with
  | nil => exact Iff.rfl
  | cons c l ih => exact (ih (sweepStep s c)).trans (sweepStep_table s c q)

theorem sweepLoop_lists (s : SweepState) (l : Registry) :
    (sweepLoop s l).running =
      s.running ++ (l.filter (fun c => statusCheck s.table c.2.pid = 0)).map Prod.snd ∧
    (sweepLoop s l).finished =
      s.finished ++ (l.filter (fun c => statusCheck s.table c.2.pid ≠ 0)).map Prod.snd ∧
    (sweepLoop s l).queries.map Prod.snd =
      s.queries.map Prod.snd ++ l.map (fun c => statusCheck s.table c.2.pid) := by
  induction l generalizing s with
  | nil => simp [sweepLoop]
  | cons c l ih =>
    have hc : ∀ pid, statusCheck (sweepStep s c).table pid = statusCheck s.table pid :=
      statusCheck_congr s.table (sweepStep s c).table (sweepStep_table s c)
    obtain ⟨ihr, ihf, ihq⟩ := ih (sweepStep s c)
    simp only [hc] at ihr ihf ihq
    simp only [sweepLoop]
    by_cases h : statusCheck s.table c.2.pid = 0
    · obtain ⟨-, h2, h3, h4⟩ := sweepStep_of_running s c h
      rw [ihr, ihf, ihq, h2, h3, h4]
      simp [h]
    · obtain ⟨-, h2, h3, h4⟩ := sweepStep_of_not_running s c h
      rw [ihr, ihf, ihq, h2, h3, h4]
      simp [h]

theorem sweepLoop_bgProcHead (s : SweepState) (pre l : Registry)
    (hs : s.bgProcHead = pre ++ l) (hnd : ((pre ++ l).map Prod.fst).Nodup) :
    (sweepLoop s l).bgProcHead =
      pre ++ l.filter (fun c => statusCheck s.table c.2.pid = 0) := by
  induction l generalizing s pre with
  | nil => simpa [sweepLoop] using hs
  | cons c l ih =>
    have hc : ∀ pid, statusCheck (sweepStep s c).table pid = statusCheck s.table pid :=
      statusCheck_congr s.table (sweepStep s c).table (sweepStep_table s c)
    simp only [sweepLoop]
    have hnd2 : c.1 ∉ pre.map Prod.fst ∧ c.1 ∉ l.map Prod.fst ∧
        ((pre ++ l).map Prod.fst).Nodup := by
      simp only [List.map_append, List.map_cons] at hnd
      rw [List.nodup_append] at hnd
      obtain ⟨h1, h2, h3⟩ := hnd
      rw [List.nodup_cons] at h2
      refine ⟨fun hm => h3 hm (List.mem_cons_self _ _), h2.1, ?_⟩
      simp only [List.map_append]
      rw [List.nodup_append]
      exact ⟨h1, h2.2, fun a ha hb => h3 ha (List.mem_cons_of_mem _ hb)⟩
    obtain ⟨hpre, hl, hnd3⟩ := hnd2
    by_cases h : statusCheck s.table c.2.pid = 0
    · have hb := (sweepStep_of_running s c h).1
      have hnd4 : (((pre ++ [c]) ++ l).map Prod.fst).Nodup := by
        simpa using hnd
      have := ih (sweepStep s c) (pre ++ [c]) (by rw [hb, hs]; simp) hnd4
      rw [this]
      simp [hc, h]
    · have hb := (sweepStep_of_not_running s c h).1
      have := ih (sweepStep s c) pre
        (by rw [hb, hs]; exact removeBgProc_append c.1 pre c l rfl hpre) hnd3
      rw [this]
      simp [hc, h]

theorem sweepLoop_all_running (s : SweepState) (l : Registry)
    (h : ∀ c ∈ l, statusCheck s.table c.2.pid = 0) :
    (sweepLoop s l).bgProcHead = s.bgProcHead := by
  induction l generalizing s with
  | nil => rfl
  | cons c l ih =>
    have hc : ∀ pid, statusCheck (sweepStep s c).table pid = statusCheck s.table pid :=
      statusCheck_congr s.table (sweepStep s c).table (sweepStep_table s c)
    simp only [sweepLoop]
    rw [ih (sweepStep s c) (fun d hd => by rw [hc]; exact h d (List.mem_cons_of_mem _ hd))]
    exact (sweepStep_of_running s c (h c (List.mem_cons_self _ _))).1

theorem sweepLoop_sublist (s : SweepState) (l : Registry) :
    (sweepLoop s l).bgProcHead.Sublist s.bgProcHead := by
  induction l generalizing s with
  | nil => exact List.Sublist.refl _
  | cons c l ih =>
    simp only [sweepLoop]
    refine (ih (sweepStep s c)).trans ?_
    by_cases h : statusCheck s.table c.2.pid = 0
    · rw [(sweepStep_of_running s c h).1]
    · rw [(sweepStep_of_not_running s c h).1]
      exact removeBgProc_sublist _ _

/-! ## More helper lemmas -/

theorem registerAll_foldl (jobs : List (Ptr × BgProcNode)) (reg : Registry) :
    jobs.foldl (fun reg j => addBgProc j.1 j.2 reg) reg = reg ++ jobs := by
  induction jobs generalizing reg with
  | nil => simp
  | cons j l ih =>
    rw [List.foldl_cons, ih, addBgProc_eq_append]
    simp

theorem registerAll_eq (jobs : List (Ptr × BgProcNode)) : registerAll jobs = jobs := by
  simp [registerAll, registerAll_foldl]

theorem printBgProcList_lists (t : ProcTable) (head : Registry) :
    (printBgProcList t head).running =
      (head.filter (fun c => statusCheck t c.2.pid = 0)).map Prod.snd ∧
    (printBgProcList t head).finished =
      (head.filter (fun c => statusCheck t c.2.pid ≠ 0)).map Prod.snd ∧
    (printBgProcList t head).queries.map Prod.snd =
      head.map (fun c => statusCheck t c.2.pid) := by
  simpa [printBgProcList] using sweepLoop_lists ⟨t, head, [], [], []⟩ head

theorem printBgProcList_bgProcHead (t : ProcTable) (head : Registry)
    (hnd : (head.map Prod.fst).Nodup) :
    (printBgProcList t head).bgProcHead =
      head.filter (fun c => statusCheck t c.2.pid = 0) := by
  simpa [printBgProcList] using
    sweepLoop_bgProcHead ⟨t, head, [], [], []⟩ [] head rfl (by simpa using hnd)

theorem printBgProcList_sublist (t : ProcTable) (head : Registry) :
    (printBgProcList t head).bgProcHead.Sublist head :=
  sweepLoop_sublist ⟨t, head, [], [], []⟩ head

theorem printBgProcList_reported_mem (t : ProcTable) (head : Registry) (n : BgProcNode)
    (hn : n ∈ (printBgProcList t head).running ++ (printBgProcList t head).finished) :
    ∃ c ∈ head, c.2 = n := by
  obtain ⟨hr, hf, -⟩ := printBgProcList_lists t head
  rw [hr, hf] at hn
  simp only [List.mem_append, List.mem_map, List.mem_filter] at hn
  rcases hn with ⟨c, ⟨hc, -⟩, rfl⟩ | ⟨c, ⟨hc, -⟩, rfl⟩
  · exact ⟨c, hc, rfl⟩
  · exact ⟨c, hc, rfl⟩

theorem runOp_pid_absent (pid : Int) (reg : Registry) (op : RegOp)
    (hreg : ∀ d ∈ reg, d.2.pid ≠ pid)
    (hop : ∀ p node, op = RegOp.register p node → node.pid ≠ pid) :
    ∀ d ∈ runOp reg op, d.2.pid ≠ pid := by
  intro d hd
  cases op with
  | register p node =>
    simp only [runOp, addBgProc_eq_append, List.mem_append, List.mem_singleton] at hd
    rcases hd with hd | rfl
    · exact hreg d hd
    · exact hop p node rfl
  | unregister node => exact hreg d ((removeBgProc_sublist node reg).subset hd)
  | sweep t => exact hreg d ((printBgProcList_sublist t reg).subset hd)

theorem reports_pid_absent (pid : Int) (ops : List RegOp) (reg : Registry)
    (hreg : ∀ d ∈ reg, d.2.pid ≠ pid)
    (hops : ∀ p node, RegOp.register p node ∈ ops → node.pid ≠ pid) :
    ∀ rep ∈ reports reg ops, ∀ n ∈ rep.1 ++ rep.2, n.pid ≠ pid := by
  induction ops generalizing reg with
  | nil => intro rep hrep; simp [reports] at hrep
  | cons op ops ih =>
    intro rep hrep n hn
    simp only [reports, List.mem_append] at hrep
    rcases hrep with hrep | hrep
    · cases op with
      | register p node => simp [reportOf] at hrep
      | unregister node => simp [reportOf] at hrep
      | sweep t =>
        simp only [reportOf, List.mem_singleton] at hrep
        subst hrep
        obtain ⟨c, hc, rfl⟩ := printBgProcList_reported_mem t reg n hn
        exact hreg c hc
    · refine ih (runOp reg op) ?_ ?_ rep hrep n hn
      · exact runOp_pid_absent pid reg op hreg
          (fun p node h => hops p node (by rw [h]; exact List.mem_cons_self _ _))
      · exact fun p node h => hops p node (List.mem_cons_of_mem _ h)

/-! ## The claims on the job registry -/

/-- C1: for every registry (of nodes at pairwise distinct addresses) and every process
table, `printBgProcList` is a stable partition.  The deciding status query made for each
node returns `statusCheck t pid`; the running list holds the contents of exactly the
nodes for which it returns 0, in registry order; the finished list holds the contents of
exactly the nodes for which it returns something else, in registry order; every listed
entry has the index, pid and command of its node; and the registry afterwards is the
list of the nodes for which it returns 0, in their original order. -/
theorem printBgProcList_stable_partition (t : ProcTable) (head : Registry)
    (hnd : (head.map Prod.fst).Nodup) :
    (printBgProcList t head).queries.map Prod.snd =
      head.map (fun c => statusCheck t c.2.pid) ∧
    (printBgProcList t head).running =
      (head.filter (fun c => statusCheck t c.2.pid = 0)).map Prod.snd ∧
    (printBgProcList t head).finished =
      (head.filter (fun c => statusCheck t c.2.pid ≠ 0)).map Prod.snd ∧
    (printBgProcList t head).bgProcHead =
      head.filter (fun c => statusCheck t c.2.pid = 0) :=
  ⟨(printBgProcList_lists t head).2.2, (printBgProcList_lists t head).1,
    (printBgProcList_lists t head).2.1, printBgProcList_bgProcHead t head hnd⟩

/-- Witness of C1 on the sample registry: jobs 101 and 104 run, 102 and 103 do not. -/
theorem printBgProcList_stable_partition_witness :
    (exRegistry.map Prod.fst).Nodup ∧
    ((printBgProcList exTable exRegistry).queries.map Prod.snd =
      exRegistry.map (fun c => statusCheck exTable c.2.pid) ∧
    (printBgProcList exTable exRegistry).running =
      (exRegistry.filter (fun c => statusCheck exTable c.2.pid = 0)).map Prod.snd ∧
    (printBgProcList exTable exRegistry).finished =
      (exRegistry.filter (fun c => statusCheck exTable c.2.pid ≠ 0)).map Prod.snd ∧
    (printBgProcList exTable exRegistry).bgProcHead =
      exRegistry.filter (fun c => statusCheck exTable c.2.pid = 0)) :=
  ⟨by decide, printBgProcList_stable_partition exTable exRegistry (by decide)⟩

/-- C2: after any sequence of `addBgProc` calls on the empty registry (N = `jobs.length`
calls), a sweep in which the status query reports still-running for every job leaves the
registry as it was, with its N entries; the running list has the N registered jobs in
registration order and the finished list is empty. -/
theorem registerAll_then_sweep_all_running (t : ProcTable) (jobs : List (Ptr × BgProcNode))
    (hrun : ∀ j ∈ jobs, statusCheck t j.2.pid = 0) :
    (registerAll jobs).length = jobs.length ∧
    (printBgProcList t (registerAll jobs)).bgProcHead = registerAll jobs ∧
    (printBgProcList t (registerAll jobs)).running = jobs.map Prod.snd ∧
    (printBgProcList t (registerAll jobs)).running.length = jobs.length ∧
    (printBgProcList t (registerAll jobs)).finished = [] := by
  obtain ⟨hr, hf, -⟩ := printBgProcList_lists t (registerAll jobs)
  rw [registerAll_eq] at hr hf ⊢
  have h1 : jobs.filter (fun c => statusCheck t c.2.pid = 0) = jobs :=
    List.filter_eq_self.2 (fun c hc => by simpa using hrun c hc)
  have h2 : jobs.filter (fun c => statusCheck t c.2.pid ≠ 0) = [] :=
    List.filter_eq_nil_iff.2 (fun c hc => by simpa using hrun c hc)
  rw [h1] at hr
  rw [h2] at hf
  refine ⟨rfl, ?_, hr, by rw [hr, List.length_map], by simpa using hf⟩
  exact sweepLoop_all_running ⟨t, jobs, [], [], []⟩ jobs hrun

/-- Witness of C2: the four sample jobs registered one by one, all running. -/
theorem registerAll_then_sweep_all_running_witness :
    (registerAll exRegistry).length = 4 ∧
    (printBgProcList allRunning (registerAll exRegistry)).bgProcHead = registerAll exRegistry ∧
    (printBgProcList allRunning (registerAll exRegistry)).running = exRegistry.map Prod.snd ∧
    (printBgProcList allRunning (registerAll exRegistry)).running.length = 4 ∧
    (printBgProcList allRunning (registerAll exRegistry)).finished = [] :=
  registerAll_then_sweep_all_running allRunning exRegistry (by decide)

/-- C3: a job of the registry (nodes at distinct addresses, jobs with distinct pids) whose
process has terminated before a sweep is listed exactly once in the finished list of that
sweep and not in its running list; afterwards no node of the registry has its address or
its pid; and whatever calls follow (sweeps under any process tables, removals,
registrations of jobs with other pids), no later sweep lists an entry with that pid as
running or as finished. -/
theorem finished_job_reported_exactly_once (t : ProcTable) (head : Registry)
    (c : Ptr × BgProcNode) (hc : c ∈ head) (haddr : (head.map Prod.fst).Nodup)
    (hpid : (head.map (fun d => d.2.pid)).Nodup) (hterm : t c.2.pid = .changed) :
    (printBgProcList t head).finished.count c.2 = 1 ∧
    c.2 ∉ (printBgProcList t head).running ∧
    (∀ d ∈ (printBgProcList t head).bgProcHead, d.1 ≠ c.1 ∧ d.2.pid ≠ c.2.pid) ∧
    ∀ ops : List RegOp, (∀ p node, RegOp.register p node ∈ ops → node.pid ≠ c.2.pid) →
      ∀ rep ∈ reports (printBgProcList t head).bgProcHead ops,
        ∀ n ∈ rep.1 ++ rep.2, n.pid ≠ c.2.pid := by
  obtain ⟨hr, hf, -⟩ := printBgProcList_lists t head
  have hb := printBgProcList_bgProcHead t head haddr
  have hsc : statusCheck t c.2.pid ≠ 0 := by
    rw [Ne, statusCheck_eq_zero_iff, hterm]
    exact fun h => ProcState.noConfusion h
  have hreg : ∀ d ∈ (printBgProcList t head).bgProcHead, d.2.pid ≠ c.2.pid := by
    intro d hd heq
    rw [hb, List.mem_filter] at hd
    rw [heq] at hd
    exact hsc (by simpa using hd.2)
  refine ⟨?_, ?_, ?_, ?_⟩
  · have hsnd : (head.map Prod.snd).Nodup := by
      refine List.Nodup.of_map (fun n : BgProcNode => n.pid) ?_
      simpa [List.map_map] using hpid
    have hnd : (printBgProcList t head).finished.Nodup := by
      rw [hf]
      exact hsnd.sublist ((List.filter_sublist head).map Prod.snd)
    refine List.count_eq_one_of_mem hnd ?_
    rw [hf]
    exact List.mem_map.2 ⟨c, List.mem_filter.2 ⟨hc, by simpa using hsc⟩, rfl⟩
  · rw [hr]
    intro hm
    obtain ⟨d, hd, hdc⟩ := List.mem_map.1 hm
    rw [List.mem_filter] at hd
    apply hsc
    rw [← hdc]
    simpa using hd.2
  · intro d hd
    refine ⟨fun h1 => ?_, hreg d hd⟩
    have hdh : d ∈ head := (printBgProcList_sublist t head).subset hd
    have : d = c := List.inj_on_of_nodup_map haddr hdh hc h1
    exact hreg d hd (by rw [this])
  · intro ops hops
    exact reports_pid_absent c.2.pid ops _ hreg hops

/-- Witness of C3: job 102 of the sample registry has terminated; a later sweep,
a registration of job 105 and one more sweep follow. -/
theorem finished_job_reported_exactly_once_witness :
    (printBgProcList exTable exRegistry).finished.count ⟨0, 102, "ls".toList⟩ = 1 ∧
    (⟨0, 102, "ls".toList⟩ : BgProcNode) ∉ (printBgProcList exTable exRegistry).running ∧
    (∀ d ∈ (printBgProcList exTable exRegistry).bgProcHead, d.1 ≠ 2 ∧ d.2.pid ≠ 102) ∧
    ∀ rep ∈ reports (printBgProcList exTable exRegistry).bgProcHead
        [.sweep allRunning, .register 5 ⟨0, 105, "vi".toList⟩, .sweep exTable],
      ∀ n ∈ rep.1 ++ rep.2, n.pid ≠ 102 :=
  have h := finished_job_reported_exactly_once exTable exRegistry (2, ⟨0, 102, "ls".toList⟩)
    (by decide) (by decide) (by decide) (by decide)
  ⟨h.1, h.2.1, h.2.2.1,
    h.2.2.2 [.sweep allRunning, .register 5 ⟨0, 105, "vi".toList⟩, .sweep exTable]
      (by
        intro p node hmem
        simp only [List.mem_cons, List.mem_singleton, List.mem_nil_iff, or_false,
          false_or, reduceCtorEq] at hmem
        obtain ⟨-, rfl⟩ := RegOp.register.inj hmem
        decide)⟩

/-- C4, as the code behaves on the input of the claim: the registry holds one job whose
status queries both fail with -1; the sweep lists it as finished and empties the
registry, so the job is not left in the registry and an output list is affected. -/
theorem query_failure_counterexample :
    (printBgProcList (fun _ => ProcState.nochild) [(1, ⟨0, 7, "sleep".toList⟩)]).queries
      = [(-1, -1)] ∧
    (printBgProcList (fun _ => ProcState.nochild) [(1, ⟨0, 7, "sleep".toList⟩)]).finished
      = [⟨0, 7, "sleep".toList⟩] ∧
    (printBgProcList (fun _ => ProcState.nochild) [(1, ⟨0, 7, "sleep".toList⟩)]).running
      = [] ∧
    (printBgProcList (fun _ => ProcState.nochild) [(1, ⟨0, 7, "sleep".toList⟩)]).bgProcHead
      = [] := by
  decide

/-- C4 amended: for every registry (nodes at distinct addresses) and every job in it
whose deciding status query fails with -1, `printBgProcList` lists that job as finished,
not as running, and unlinks its node from the registry; every other node of the same
sweep is classified as usual: kept and listed as running when its query returns 0,
unlinked and listed as finished otherwise. -/
theorem query_failure_reported_finished (t : ProcTable) (head : Registry)
    (c : Ptr × BgProcNode) (hc : c ∈ head) (hnd : (head.map Prod.fst).Nodup)
    (hfail : statusCheck t c.2.pid = -1) :
    c.2 ∈ (printBgProcList t head).finished ∧
    c.2 ∉ (printBgProcList t head).running ∧
    c.1 ∉ (printBgProcList t head).bgProcHead.map Prod.fst ∧
    ∀ d ∈ head, d.1 ≠ c.1 →
      (statusCheck t d.2.pid = 0 →
        d ∈ (printBgProcList t head).bgProcHead ∧ d.2 ∈ (printBgProcList t head).running) ∧
      (statusCheck t d.2.pid ≠ 0 →
        d ∉ (printBgProcList t head).bgProcHead ∧ d.2 ∈ (printBgProcList t head).finished) := by
  obtain ⟨hr, hf, -⟩ := printBgProcList_lists t head
  have hb := printBgProcList_bgProcHead t head hnd
  have hsc : statusCheck t c.2.pid ≠ 0 := by rw [hfail]; decide
  rw [hr, hf, hb]
  refine ⟨?_, ?_, ?_, ?_⟩
  · exact List.mem_map.2 ⟨c, List.mem_filter.2 ⟨hc, by simpa using hsc⟩, rfl⟩
  · intro hm
    obtain ⟨d, hd, hdc⟩ := List.mem_map.1 hm
    rw [List.mem_filter] at hd
    apply hsc
    rw [← hdc]
    simpa using hd.2
  · intro hm
    obtain ⟨d, hd, hdc⟩ := List.mem_map.1 hm
    rw [List.mem_filter] at hd
    have : d = c := List.inj_on_of_nodup_map hnd hd.1 hc hdc
    apply hsc
    rw [← this]
    simpa using hd.2
  · intro d hd _
    refine ⟨fun h0 => ⟨?_, ?_⟩, fun h1 => ⟨?_, ?_⟩⟩
    · exact List.mem_filter.2 ⟨hd, by simpa using h0⟩
    · exact List.mem_map.2 ⟨d, List.mem_filter.2 ⟨hd, by simpa using h0⟩, rfl⟩
    · intro hm
      rw [List.mem_filter] at hm
      exact h1 (by simpa using hm.2)
    · exact List.mem_map.2 ⟨d, List.mem_filter.2 ⟨hd, by simpa using h1⟩, rfl⟩

/-- Witness of C4 amended: job 103 of the sample registry, whose query fails. -/
theorem query_failure_reported_finished_witness :
    statusCheck exTable 103 = -1 ∧
    (⟨0, 103, "cat".toList⟩ : BgProcNode) ∈ (printBgProcList exTable exRegistry).finished ∧
    (⟨0, 103, "cat".toList⟩ : BgProcNode) ∉ (printBgProcList exTable exRegistry).running ∧
    3 ∉ (printBgProcList exTable exRegistry).bgProcHead.map Prod.fst :=
  have h := query_failure_reported_finished exTable exRegistry (3, ⟨0, 103, "cat".toList⟩)
    (by decide) (by decide) (by decide)
  ⟨by decide, h.1, h.2.1, h.2.2.1⟩

/-- C5: two sweeps in succession on a registry of nodes at distinct addresses.  If at the
second sweep the process of every job still registered is in the state the first sweep
left it in, the second sweep builds the same running list as the first, an empty
finished list, and leaves the registry as the first sweep left it. -/
theorem printBgProcList_idempotent (t u : ProcTable) (head : Registry)
    (hnd : (head.map Prod.fst).Nodup)
    (hsame : ∀ c ∈ (printBgProcList t head).bgProcHead,
      u c.2.pid = (printBgProcList t head).table c.2.pid) :
    (printBgProcList u (printBgProcList t head).bgProcHead).running =
      (printBgProcList t head).running ∧
    (printBgProcList u (printBgProcList t head).bgProcHead).finished = [] ∧
    (printBgProcList u (printBgProcList t head).bgProcHead).bgProcHead =
      (printBgProcList t head).bgProcHead := by
  have hb := printBgProcList_bgProcHead t head hnd
  have hr := (printBgProcList_lists t head).1
  have hrun : ∀ c ∈ (printBgProcList t head).bgProcHead, statusCheck u c.2.pid = 0 := by
    intro c hc
    rw [statusCheck_eq_zero_iff, hsame c hc]
    refine (sweepLoop_table ⟨t, head, [], [], []⟩ head c.2.pid).2 ?_
    rw [hb, List.mem_filter] at hc
    exact (statusCheck_eq_zero_iff t c.2.pid).1 (by simpa using hc.2)
  obtain ⟨hr2, hf2, -⟩ := printBgProcList_lists u (printBgProcList t head).bgProcHead
  have h1 : (printBgProcList t head).bgProcHead.filter (fun c => statusCheck u c.2.pid = 0)
      = (printBgProcList t head).bgProcHead :=
    List.filter_eq_self.2 (fun c hc => by simpa using hrun c hc)
  have h2 : (printBgProcList t head).bgProcHead.filter (fun c => statusCheck u c.2.pid ≠ 0)
      = [] :=
    List.filter_eq_nil_iff.2 (fun c hc => by simpa using hrun c hc)
  refine ⟨?_, ?_, ?_⟩
  · rw [hr2, h1, hr, hb]
  · rw [hf2, h2]
    rfl
  · exact sweepLoop_all_running ⟨u, _, [], [], []⟩ _ hrun

/-- Witness of C5: the sample registry swept twice, the second time under the table the
first sweep left. -/
theorem printBgProcList_idempotent_witness :
    (printBgProcList (printBgProcList exTable exRegistry).table
        (printBgProcList exTable exRegistry).bgProcHead).running =
      (printBgProcList exTable exRegistry).running ∧
    (printBgProcList (printBgProcList exTable exRegistry).table
        (printBgProcList exTable exRegistry).bgProcHead).finished = [] ∧
    (printBgProcList (printBgProcList exTable exRegistry).table
        (printBgProcList exTable exRegistry).bgProcHead).bgProcHead =
      (printBgProcList exTable exRegistry).bgProcHead :=
  printBgProcList_idempotent exTable (printBgProcList exTable exRegistry).table exRegistry
    (by decide) (fun _ _ => rfl)

/-- C6: for every registry, address returned by `malloc` and node passed, `addBgProc`
yields the old registry followed by one new cell holding the pid, the command text and the
index of the node passed: the size grows by one and every position of the old registry
keeps its entry.  It holds for the empty registry as for a non-empty one. -/
theorem addBgProc_appends_at_tail (p : Ptr) (node : BgProcNode) (reg : Registry) :
    addBgProc p node reg = reg ++ [(p, ⟨node.index, node.pid, node.command⟩)] ∧
    (addBgProc p node reg).length = reg.length + 1 ∧
    (∀ i, i < reg.length → (addBgProc p node reg)[i]? = reg[i]?) ∧
    (addBgProc p node reg)[reg.length]? = some (p, node) ∧
    addBgProc p node [] = [(p, node)] := by
  have h := addBgProc_eq_append p node reg
  refine ⟨h, by simp [h], fun i hi => ?_, by simp [h], rfl⟩
  rw [h, List.getElem?_append_left hi]

/-- C7: for every registry and every node address, `removeBgProc` leaves the registry as
it is when no node has that address, and otherwise unlinks the node at that address and
nothing else: the nodes before it and the nodes after it stay, in order, whether it was
the head, in the middle or the tail. -/
theorem removeBgProc_removes_only_that_node (node : Ptr) (reg : Registry) :
    (node ∉ reg.map Prod.fst → removeBgProc node reg = reg) ∧
    (∀ (l1 l2 : Registry) (c : Ptr × BgProcNode), reg = l1 ++ c :: l2 → c.1 = node →
      node ∉ l1.map Prod.fst → removeBgProc node reg = l1 ++ l2) ∧
    (node ∈ reg.map Prod.fst → (removeBgProc node reg).length + 1 = reg.length) := by
  refine ⟨removeBgProc_of_not_mem node reg, ?_, ?_⟩
  · intro l1 l2 c hreg hc hl1
    rw [hreg]
    exact removeBgProc_append node l1 c l2 hc hl1
  · intro hm
    induction reg with
    | nil => simp at hm
    | cons d l ih =>
      unfold removeBgProc
      split
      · rfl
      · rename_i hne
        simp only [List.map_cons, List.mem_cons] at hm
        rcases hm with hm | hm
        · exact absurd hm.symm hne
        · simp [ih hm]

/-- Witness of C7 on the sample registry: removal of the head, of a middle node, of the
tail, and of an address that no node has. -/
theorem removeBgProc_removes_only_that_node_witness :
    removeBgProc 1 exRegistry = exRegistry.drop 1 ∧
    removeBgProc 2 exRegistry = exRegistry.take 1 ++ exRegistry.drop 2 ∧
    removeBgProc 4 exRegistry = exRegistry.take 3 ∧
    removeBgProc 9 exRegistry = exRegistry :=
  ⟨(removeBgProc_removes_only_that_node 1 exRegistry).2.1 [] (exRegistry.drop 1)
      (1, ⟨0, 101, "sleep".toList⟩) rfl rfl (by decide),
    (removeBgProc_removes_only_that_node 2 exRegistry).2.1 (exRegistry.take 1)
      (exRegistry.drop 2) (2, ⟨0, 102, "ls".toList⟩) rfl rfl (by decide),
    (removeBgProc_removes_only_that_node 4 exRegistry).2.1 (exRegistry.take 3) []
      (4, ⟨0, 104, "top".toList⟩) rfl rfl (by decide),
    (removeBgProc_removes_only_that_node 9 exRegistry).1 (by decide)⟩

/-! ## The claims on the loop of `main` -/

/-- C8, the code at the failing input: two background commands are launched one after
the other from the empty registry; both registered jobs carry the index the local
`newBgProc` happened to start with (7 here), so the two indices are equal. -/
theorem main_registers_equal_indices :
    (runSteps [exEnv "sleep 5 &\n".toList 42 100, exEnv "sleep 6 &\n".toList 43 101]
        exShell).registry.map (fun c => (c.2.index, c.2.pid)) = [(7, 42), (7, 43)] := by
  decide

/-- C9, the code at the failing input: for the line `sleep 5 &` the command text stored
in the registry is `sleep`, the first token only. -/
theorem main_stores_first_token :
    (mainStep (exEnv "sleep 5 &\n".toList 42 100) exShell).registry =
      [(100, ⟨7, 42, "sleep".toList⟩)] := by
  decide

/-- C13, the code at the failing input `sleep 5&`: `setup` overwrites the `5` that
precedes the `&` with NUL, so it returns the argument strings `sleep` and the empty
string with the background flag 1; no argument starts with `&`, so the scan in `main`
runs into the terminating `NULL` and the tokenization faults instead of yielding
`sleep`, `5`. -/
theorem tokenizeLine_attached_ampersand :
    (∃ s, setup (.bytes "sleep 5&\n".toList) exShell.inputBuffer exShell.args 0 = .returned s ∧
      argStrings s.inputBuffer s.args = ["sleep".toList, []] ∧ s.background = 1) ∧
    tokenizeLine (.bytes "sleep 5&\n".toList) exShell.inputBuffer exShell.args = .fault := by
  refine ⟨⟨_, rfl, ?_, ?_⟩, ?_⟩ <;> decide

/-- The function `setup` on the result of `read`.  With 0 bytes read it calls `exit(0)`.
When `read` fails with an `errno` other than `EINTR` it calls `exit(-1)`, a non-zero
status.  When `read` fails with `EINTR` it returns: the buffer and the background flag are
as they were and `args[0]` is `NULL`, an empty argument list.  An empty line (a newline
alone) makes it return too, so end of input and an empty line are told apart. -/
theorem setup_classifies_read (inputBuffer : List Char) (args : List (Option Nat))
    (background : Int) :
    setup (.bytes []) inputBuffer args background = .exited 0 ∧
    (∀ errno, errno ≠ EINTR →
      setup (.fail errno) inputBuffer args background = .exited (-1) ∧ (-1 : Int) ≠ 0) ∧
    (∃ s, setup (.fail EINTR) inputBuffer args background = .returned s ∧
      s.inputBuffer = inputBuffer ∧ s.background = background ∧
      s.args = args.set 0 none ∧ argStrings s.inputBuffer s.args = []) ∧
    (∃ s, setup (.bytes ['\n']) inputBuffer args background = .returned s ∧
      s.background = background ∧ argStrings s.inputBuffer s.args = []) := by
  refine ⟨by simp [setup], ?_, ?_, ?_⟩
  · intro errno he
    simp [setup, he]
  · refine ⟨_, by simp [setup, EINTR]; rfl, rfl, rfl, rfl, ?_⟩
    cases args <;> simp [storeArg, argStrings]
  · refine ⟨_, by simp [setup]; rfl, ?_, ?_⟩
    · simp [List.range, List.range.loop, setupStep, storeArg, storeBuf, closeToken, NUL]
    · cases args with
      | nil =>
        simp [List.range, List.range.loop, setupStep, storeArg, storeBuf, closeToken,
          argStrings, NUL]
      | cons a rest =>
        simp [List.range, List.range.loop, setupStep, storeArg, storeBuf, closeToken,
          argStrings, NUL]

set_option maxRecDepth 100000 in
/-- C18, the code at the failing input: 80 bytes, the letter `a` followed by 79 newlines.
The `'\n'` case does not reset `start`, so every further newline stores one more
pointer: `setup` stores to `args[79]`, past the 41 slots of `args`. -/
theorem setup_stores_past_args :
    ('a' :: List.replicate 79 '\n').length = MAX_LINE ∧
    79 ∈ (setup (.bytes ('a' :: List.replicate 79 '\n')) exShell.inputBuffer exShell.args
      0).argWrites ∧
    ¬ ∀ k ∈ (setup (.bytes ('a' :: List.replicate 79 '\n')) exShell.inputBuffer exShell.args
      0).argWrites, k ≤ MAX_LINE / 2 := by
  decide

/-- C19, the code at the failing input: the two bytes `&` and newline.  At `i = 0` the
store `inputBuffer[i - 1] = '\0'` goes to index -1, before the start of the buffer. -/
theorem setup_stores_before_inputBuffer :
    (setup (.bytes "&\n".toList) exShell.inputBuffer exShell.args 0).bufWrites = [-1, 1] := by
  decide

/-! ## The claims on the path resolver that are settled by running it -/

/-- C17, the code when `getenv("PATH")` is `NULL`: `get_executable_directory` faults in
`strlen(path_env)` for every command name instead of returning 0, and an iteration of
`main` that launches an external command faults with it. -/
theorem get_executable_directory_without_PATH (mem : MemEnv)
    (readdir : List Char → Option (List (List Char))) (command : List Char) :
    get_executable_directory mem none readdir command = none ∧
    mainStep ⟨.bytes "ls\n".toList, none, readdir, 42, ⟨7, 0, []⟩, 100, allRunning, mem⟩
      exShell = .fault := by
  refine ⟨rfl, ?_⟩
  have hp : parseLine (.bytes "ls\n".toList) exShell =
      .parsed (parseLine (.bytes "ls\n".toList) exShell).get := by decide
  have hc : (parseLine (.bytes "ls\n".toList) exShell).get.command = "ls".toList := by decide
  unfold mainStep
  simp only []
  rw [hp]
  simp only []
  rw [hc, if_neg (by decide), if_neg (by decide), if_neg (by decide)]
  simp [launch, get_executable_directory]

/-- C20, the code at the failing input `PATH=/usr/bin:/bin`: the array `variables` is
declared with `path_length = 1` element (one colon) and the loop stores two strings, at
the indices 0 and 1, so `path_index` ends at 2. -/
theorem scanPath_stores_past_variables :
    (scanPath "/usr/bin:/bin".toList).path_length = 1 ∧
    (scanPath "/usr/bin:/bin".toList).variablesArr = ["/usr/bin".toList, "/bin".toList] ∧
    (scanPath "/usr/bin:/bin".toList).path_index = 2 := by
  decide

/-! ## Splitting into runs -/

theorem splitRuns_eq_splitOnP_go (p : Char → Bool) (rest cur : List Char) :
    splitRuns p cur rest =
      (List.splitOnP.go p rest cur.reverse).filter (fun t => t ≠ []) := by
  induction rest generalizing cur with
  | nil =>
    by_cases h : cur = [] <;> simp [splitRuns, List.splitOnP.go, h]
  | cons c cs ih =>
    by_cases hp : p c
    · have h0 := ih []
      simp only [List.reverse_nil] at h0
      by_cases h : cur = [] <;> simp [splitRuns, List.splitOnP.go, hp, h, h0]
    · have h1 := ih (cur ++ [c])
      simp only [List.reverse_append, List.reverse_cons, List.reverse_nil, List.nil_append,
        List.singleton_append] at h1
      simp [splitRuns, List.splitOnP.go, hp, h1]

theorem splitRuns_eq_specTokens (line : List Char) :
    splitRuns isSeparator [] line = specTokens line := by
  rw [splitRuns_eq_splitOnP_go]
  rfl

theorem strtokAll_eq_splitRuns (cur path : List Char) :
    strtokAll cur path = splitRuns (fun c => c == ':') cur path := by
  induction path generalizing cur with
  | nil => simp [strtokAll, splitRuns]
  | cons c cs ih =>
    by_cases hc : c = ':' <;> by_cases h : cur = [] <;> simp [strtokAll, splitRuns, hc, h, ih]

theorem strtokAll_eq_specPathEntries (path : List Char) :
    strtokAll [] path = specPathEntries path := by
  rw [strtokAll_eq_splitRuns, splitRuns_eq_splitOnP_go]
  rfl

/-! ## The path resolver -/

theorem is_in_directory_iff (readdir : List Char → Option (List (List Char)))
    (command directory : List Char) :
    is_in_directory readdir command directory = true ↔ hasEntry readdir directory command := by
  unfold is_in_directory hasEntry
  cases h : readdir directory with
  | none => simp
  | some names => simp

theorem storeTokens_of_fits (mem : MemEnv) (path_length : Nat) (tokens : List (List Char))
    (k : Nat) (hslots : k + tokens.length ≤ mem.slots path_length)
    (htok : ∀ t ∈ tokens, strcpyFits mem t = true) :
    storeTokens mem path_length tokens k = some tokens := by
  induction tokens generalizing k with
  | nil => rfl
  | cons t ts ih =>
    simp only [List.length_cons] at hslots
    have h1 : k < mem.slots path_length := by omega
    have h2 := htok t (List.mem_cons_self _ _)
    rw [storeTokens, if_pos ⟨h1, h2⟩,
      ih (k + 1) (by omega) (fun x hx => htok x (List.mem_cons_of_mem _ hx))]
    rfl

theorem searchDirs_append (readdir : List Char → Option (List (List Char)))
    (command : List Char) (pre : List (List Char)) (d : List Char) (post : List (List Char))
    (hpre : ∀ e ∈ pre, ¬ hasEntry readdir e command) (hd : hasEntry readdir d command)
    (hfit : (d ++ ['/'] ++ command).length + 1 ≤ DIRECTORY_SIZE) :
    searchDirs readdir command (pre ++ d :: post) = some (some (d ++ ['/'] ++ command)) := by
  induction pre with
  | nil =>
    rw [List.nil_append, searchDirs, if_pos ((is_in_directory_iff readdir command d).2 hd),
      if_pos hfit]
  | cons e es ih =>
    have he : ¬ is_in_directory readdir command e = true :=
      fun hb => hpre e (List.mem_cons_self _ _) ((is_in_directory_iff readdir command e).1 hb)
    rw [List.cons_append, searchDirs, if_neg he]
    exact ih (fun x hx => hpre x (List.mem_cons_of_mem _ hx))

theorem searchDirs_none (readdir : List Char → Option (List (List Char)))
    (command : List Char) (dirs : List (List Char))
    (h : ∀ e ∈ dirs, ¬ hasEntry readdir e command) :
    searchDirs readdir command dirs = some none := by
  induction dirs with
  | nil => rfl
  | cons e es ih =>
    have he : ¬ is_in_directory readdir command e = true :=
      fun hb => h e (List.mem_cons_self _ _) ((is_in_directory_iff readdir command e).1 hb)
    rw [searchDirs, if_neg he]
    exact ih (fun x hx => h x (List.mem_cons_of_mem _ hx))

/-- What `get_executable_directory` does when the copy of `PATH` fits its block, the
array `variables` has room for every entry and every entry fits its block.  The
directories tried are the entries of the colon-delimited value from left to right.  If
an entry `d` holds the exact name of the command, no entry to its left does, and `d`, a
slash, the name and the closing NUL fit the 50 bytes of `directory`, it returns 1 with
that string; if no entry holds the name it returns 0. -/
theorem get_executable_directory_of_fits (mem : MemEnv)
    (readdir : List Char → Option (List (List Char))) (command path : List Char)
    (hpath : strcpyFits mem path = true)
    (hslots : (specPathEntries path).length ≤ mem.slots (path.count ':'))
    (htok : ∀ t ∈ specPathEntries path, strcpyFits mem t = true) :
    (∀ (pre : List (List Char)) (d : List Char) (post : List (List Char)),
      specPathEntries path = pre ++ d :: post →
      hasEntry readdir d command → (∀ e ∈ pre, ¬ hasEntry readdir e command) →
      (d ++ ['/'] ++ command).length + 1 ≤ DIRECTORY_SIZE →
      get_executable_directory mem (some path) readdir command =
        some (some (d ++ ['/'] ++ command))) ∧
    ((∀ e ∈ specPathEntries path, ¬ hasEntry readdir e command) →
      get_executable_directory mem (some path) readdir command = some none) := by
  have hv : (scanPath path).variablesArr = specPathEntries path :=
    strtokAll_eq_specPathEntries path
  have hl : (scanPath path).path_length = path.count ':' := rfl
  have hstore : storeTokens mem (scanPath path).path_length (scanPath path).variablesArr 0 =
      some (specPathEntries path) := by
    rw [hv, hl]
    exact storeTokens_of_fits mem _ _ 0 (by omega) htok
  constructor
  · intro pre d post hsplit hd hpre hfit
    simp only [get_executable_directory, hpath, if_true, hstore, hsplit]
    exact searchDirs_append readdir command pre d post hpre hd hfit
  · intro hnone
    simp only [get_executable_directory, hpath, if_true, hstore]
    exact searchDirs_none readdir command _ hnone

/-- C16, the code at the failing input: `PATH` is the 56-character value
`/usr/local/bin:/usr/bin:/bin:/usr/local/games:/usr/games`, the command `fortune` is an
entry of the directory `/usr/games`, which is an entry of the path, and a heap block
requested with 56 bytes holds 56 bytes.  The block of `path` is requested with
`strlen(path_env)` bytes, so the closing NUL that `strcpy` stores lands outside it:
`get_executable_directory` faults instead of returning 1 with `/usr/games/fortune`. -/
theorem get_executable_directory_stores_past_block :
    samplePath.length = 56 ∧ exMem.usable 56 = 56 ∧
    "/usr/games".toList ∈ specPathEntries samplePath ∧
    hasEntry sampleReaddir "/usr/games".toList "fortune".toList ∧
    get_executable_directory exMem (some samplePath) sampleReaddir "fortune".toList = none :=
  ⟨by decide, by decide, by decide, ⟨["fortune".toList], by decide, by decide⟩, by decide⟩

/-! ## The loop of `setup` on a stretch without newline and `&` -/

theorem takeWhile_tok (tok rest : List Char) (h : NUL ∉ tok) :
    (tok ++ NUL :: rest).takeWhile (fun c => c ≠ NUL) = tok := by
  induction tok with
  | nil => simp [List.takeWhile]
  | cons a t ih =>
    simp only [List.mem_cons, not_or] at h
    have ha : a ≠ NUL := fun e => h.1 e.symm
    rw [List.cons_append, List.takeWhile_cons_of_pos (by simpa using ha), ih h.2]

theorem set_append_length {α : Type} (A : List α) (x y : α) (R : List α) :
    (A ++ x :: R).set A.length y = A ++ y :: R := by
  induction A with
  | nil => rfl
  | cons a A ih => simp [List.set, ih]

theorem getD_append_length {α : Type} (A : List α) (x d : α) (R : List α) :
    (A ++ x :: R).getD A.length d = x := by
  induction A with
  | nil => rfl
  | cons a A ih => simpa [List.getD] using ih

theorem TokAt.lt_length {B : List Char} {k : Nat} {tok : List Char} (h : TokAt B k tok) :
    k < B.length := by
  obtain ⟨rest, hr⟩ := h.2
  by_contra hk
  rw [List.drop_eq_nil_of_le (Nat.le_of_not_lt hk)] at hr
  exact absurd hr (by simp)

theorem TokAt.append {B : List Char} {k : Nat} {tok : List Char} (h : TokAt B k tok)
    (X : List Char) : TokAt (B ++ X) k tok := by
  obtain ⟨rest, hr⟩ := h.2
  refine ⟨h.1, rest ++ X, ?_⟩
  rw [List.drop_append_of_le_length (Nat.le_of_lt h.lt_length), hr]
  simp

theorem TokAt.strAt {B : List Char} {k : Nat} {tok : List Char} (h : TokAt B k tok)
    (X : List Char) : ((B ++ X).drop k).takeWhile (fun c => c ≠ NUL) = tok := by
  obtain ⟨rest, hr⟩ := (h.append X).2
  rw [hr]
  exact takeWhile_tok tok rest h.1

theorem TokAt.getD_head {B : List Char} {k : Nat} {a : Char} {t : List Char}
    (h : TokAt B k (a :: t)) (X : List Char) : (B ++ X).getD k NUL = a := by
  obtain ⟨rest, hr⟩ := (h.append X).2
  have h1 : ((B ++ X).drop k)[0]? = some a := by rw [hr]; simp
  rw [List.getElem?_drop] at h1
  rw [List.getD_eq_getElem?_getD]
  simpa using congrArg (fun o => o.getD NUL) h1

theorem argStrings_of_tokAt (B X : List Char) (kt : List (Nat × List Char))
    (R : List (Option Nat)) (h : ∀ p ∈ kt, TokAt B p.1 p.2) :
    argStrings (B ++ X) (kt.map (fun p => some p.1) ++ none :: R) = kt.map Prod.snd := by
  induction kt with
  | nil => simp [argStrings]
  | cons p kt ih =>
    rw [List.map_cons, List.cons_append, argStrings,
      (h p (List.mem_cons_self _ _)).strAt X,
      ih (fun q hq => h q (List.mem_cons_of_mem _ hq)), List.map_cons]

theorem ScanInv.getD {L : Nat} {bg : Int} {s : SetupState} {P : List Char} {c : Char}
    {tail : List Char} {kt : List (Nat × List Char)} {cur : List Char}
    (h : ScanInv L bg s P (c :: tail) kt cur) : s.inputBuffer.getD P.length NUL = c := by
  rw [h.buf]
  exact getD_append_length P c NUL tail

theorem ScanInv.close {L : Nat} {bg : Int} {s : SetupState} {P : List Char}
    {tail : List Char} {kt : List (Nat × List Char)} {cur : List Char}
    (h : ScanInv L bg s P tail kt cur) (hcap : P.length + 1 ≤ 2 * L) :
    ∃ (kt' : List (Nat × List Char)) (R : List (Option Nat)),
      (closeToken s).args = kt'.map (fun p => some p.1) ++ R ∧
      kt'.map Prod.snd = kt.map Prod.snd ++ (if cur = [] then [] else [cur]) ∧
      (closeToken s).ct = kt'.length ∧ (closeToken s).args.length = L ∧
      (∀ p ∈ kt', TokAt (P ++ [NUL]) p.1 p.2) ∧ 2 * kt'.length ≤ P.length + 1 ∧
      (closeToken s).inputBuffer = s.inputBuffer ∧
      (closeToken s).background = s.background ∧ (closeToken s).start = s.start ∧
      ∃ k0, kt' = kt ++ (if cur = [] then [] else [(k0, cur)]) := by
  obtain ⟨R, hR⟩ := h.args
  rcases h.opn with ⟨hcur, hstart⟩ | ⟨hcur, hnul, P0, hP, hstart⟩
  · have hclose : closeToken s = s := by simp [closeToken, hstart]
    have hb := h.bound
    simp only [hcur, if_true] at hb
    refine ⟨kt, R, by rw [hclose]; exact hR, by simp [hcur], by rw [hclose]; exact h.ct,
      by rw [hclose]; exact h.len, fun p hp => (h.tok p hp).append [NUL], by omega,
      by rw [hclose], by rw [hclose], by rw [hclose], 0, by simp [hcur]⟩
  · have hne : s.start ≠ -1 := by rw [hstart]; omega
    have hb := h.bound
    simp only [hcur, if_false] at hb
    have hlen := h.len
    rw [hR, List.length_append, List.length_map] at hlen
    have hRne : R ≠ [] := by
      intro hnil
      rw [hnil] at hlen
      simp only [List.length_nil] at hlen
      omega
    obtain ⟨r, R', rfl⟩ := List.exists_cons_of_ne_nil hRne
    refine ⟨kt ++ [(P0.length, cur)], R', ?_, by simp [hcur], ?_, ?_, ?_, ?_, ?_, ?_, ?_,
      P0.length, by simp [hcur]⟩
    · simp only [closeToken, hne, ne_eq, not_false_eq_true, if_true, storeArg, hR, h.ct,
        hstart, Int.toNat_ofNat]
      have := set_append_length (kt.map (fun p => some p.1)) r (some P0.length) R'
      rw [List.length_map] at this
      rw [this]
      simp
    · simp [closeToken, hne, storeArg, h.ct]
    · simp only [closeToken, hne, ne_eq, not_false_eq_true, if_true, storeArg,
        List.length_set]
      exact h.len
    · intro p hp
      rw [List.mem_append, List.mem_singleton] at hp
      rcases hp with hp | rfl
      · exact (h.tok p hp).append [NUL]
      · refine ⟨hnul, [], ?_⟩
        simp [hP]
    · simp only [List.length_append, List.length_singleton]
      omega
    · simp [closeToken, hne, storeArg]
    · simp [closeToken, hne, storeArg]
    · simp [closeToken, hne, storeArg]

theorem ScanInv.sep_step {L : Nat} {bg : Int} {s : SetupState} {P : List Char} {c : Char}
    {tail : List Char} {kt : List (Nat × List Char)} {cur : List Char}
    (h : ScanInv L bg s P (c :: tail) kt cur) (hc : c = ' ' ∨ c = '\t')
    (hcap : P.length + 1 ≤ 2 * L) :
    ∃ kt', ScanInv L bg (setupStep s P.length) (P ++ [NUL]) tail kt' [] ∧
      kt'.map Prod.snd = kt.map Prod.snd ++ (if cur = [] then [] else [cur]) := by
  obtain ⟨kt', R, ha, hs, hct, hlen, htok, hb, hbuf, hbg, -⟩ := h.close hcap
  have hstep : setupStep s P.length =
      { storeBuf (closeToken s) P.length NUL with start := -1 } := by
    simp only [setupStep, h.getD]
    rw [if_pos hc]
  refine ⟨kt', ?_, hs⟩
  rw [hstep]
  exact
    { buf := by
        simp only [storeBuf, hbuf, h.buf, Int.natCast_nonneg, if_true, Int.toNat_ofNat]
        rw [set_append_length]
        simp
      args := ⟨R, by simpa [storeBuf] using ha⟩
      ct := by simpa [storeBuf] using hct
      len := by simpa [storeBuf] using hlen
      tok := htok
      bound := by simpa using hb
      opn := Or.inl ⟨rfl, rfl⟩
      bg := by simpa [storeBuf, hbg] using h.bg }

theorem ScanInv.reg_step {L : Nat} {bg : Int} {s : SetupState} {P : List Char} {c : Char}
    {tail : List Char} {kt : List (Nat × List Char)} {cur : List Char}
    (h : ScanInv L bg s P (c :: tail) kt cur) (h1 : c ≠ ' ') (h2 : c ≠ '\t')
    (h3 : c ≠ '\n') (h4 : c ≠ '&') (h5 : c ≠ NUL) :
    ScanInv L bg (setupStep s P.length) (P ++ [c]) tail kt (cur ++ [c]) := by
  have hstep : setupStep s P.length =
      if s.start = -1 then { s with start := P.length } else s := by
    simp only [setupStep, h.getD]
    rw [if_neg (by simp [h1, h2]), if_neg h3, if_neg h4]
  have hb := h.bound
  have hnul : ∀ l : List Char, NUL ∉ l → NUL ∉ l ++ [c] := by
    intro l hl hm
    rw [List.mem_append, List.mem_singleton] at hm
    rcases hm with hm | hm
    · exact hl hm
    · exact h5 hm.symm
  rcases h.opn with ⟨hcur, hstart⟩ | ⟨hcur, hn, P0, hP, hstart⟩
  · rw [hstep, if_pos hstart]
    simp only [hcur, if_true] at hb
    exact
      { buf := by simp [h.buf]
        args := h.args
        ct := h.ct
        len := h.len
        tok := fun p hp => (h.tok p hp).append [c]
        bound := by simp only [List.length_append, List.length_singleton]; simp; omega
        opn := Or.inr ⟨by simp, hnul cur (by simp [hcur]), P, by simp [hcur], rfl⟩
        bg := h.bg }
  · have hne : s.start ≠ -1 := by rw [hstart]; omega
    rw [hstep, if_neg hne]
    simp only [hcur, if_false] at hb
    exact
      { buf := by simp [h.buf]
        args := h.args
        ct := h.ct
        len := h.len
        tok := fun p hp => (h.tok p hp).append [c]
        bound := by simp only [List.length_append, List.length_singleton]; simp; omega
        opn := Or.inr ⟨by simp, hnul cur hn, P0, by simp [hP], hstart⟩
        bg := h.bg }

theorem ScanInv.scan {L : Nat} {bg : Int} (suf : List Char)
    (hsuf : ∀ c ∈ suf, c ≠ '\n' ∧ c ≠ '&' ∧ c ≠ NUL) :
    ∀ (s : SetupState) (P tail : List Char) (kt : List (Nat × List Char)) (cur : List Char),
      ScanInv L bg s P (suf ++ tail) kt cur → P.length + suf.length ≤ 2 * L →
      ∃ P' kt' cur', P'.length = P.length + suf.length ∧
        ScanInv L bg ((List.range' P.length suf.length).foldl setupStep s) P' tail kt' cur' ∧
        kt'.map Prod.snd ++ (if cur' = [] then [] else [cur']) =
          kt.map Prod.snd ++ splitRuns isSeparator cur suf := by
  induction suf with
  | nil =>
    intro s P tail kt cur h _
    refine ⟨P, kt, cur, rfl, by simpa using h, ?_⟩
    simp [splitRuns]
  | cons c cs ih =>
    intro s P tail kt cur h hcap
    have hc := hsuf c (List.mem_cons_self _ _)
    have hcs : ∀ x ∈ cs, x ≠ '\n' ∧ x ≠ '&' ∧ x ≠ NUL :=
      fun x hx => hsuf x (List.mem_cons_of_mem _ hx)
    simp only [List.length_cons] at hcap
    simp only [List.length_cons, List.range'_succ, List.foldl_cons]
    by_cases hsep : c = ' ' ∨ c = '\t'
    · obtain ⟨kt1, h1, hk1⟩ := h.sep_step hsep (by omega)
      have hl1 : (P ++ [NUL]).length = P.length + 1 := by simp
      obtain ⟨P', kt', cur', hP', hinv, hruns⟩ :=
        ih hcs (setupStep s P.length) (P ++ [NUL]) tail kt1 [] h1 (by omega)
      rw [hl1] at hinv hP'
      refine ⟨P', kt', cur', by omega, hinv, ?_⟩
      have hp : isSeparator c = true := by
        rcases hsep with rfl | rfl <;> decide
      rw [hruns, hk1]
      by_cases hcur : cur = [] <;> simp [splitRuns, hp, hcur]
    · have hn1 : c ≠ ' ' := fun e => hsep (Or.inl e)
      have hn2 : c ≠ '\t' := fun e => hsep (Or.inr e)
      have h1 := h.reg_step hn1 hn2 hc.1 hc.2.1 hc.2.2
      have hl1 : (P ++ [c]).length = P.length + 1 := by simp
      obtain ⟨P', kt', cur', hP', hinv, hruns⟩ :=
        ih hcs (setupStep s P.length) (P ++ [c]) tail kt (cur ++ [c]) h1 (by omega)
      rw [hl1] at hinv hP'
      refine ⟨P', kt', cur', by omega, hinv, ?_⟩
      have hp : isSeparator c = false := by
        simp [isSeparator, hn1, hn2]
      rw [hruns]
      simp [splitRuns, hp]

theorem ScanInv.newline_final {L : Nat} {bg : Int} {s : SetupState} {P : List Char}
    {tail : List Char} {kt : List (Nat × List Char)} {cur : List Char}
    (h : ScanInv L bg s P ('\n' :: tail) kt cur) (hcap : P.length + 2 ≤ 2 * L) :
    ∃ (kt' : List (Nat × List Char)) (R : List (Option Nat)),
      (storeArg (setupStep s P.length) none).args = kt'.map (fun p => some p.1) ++ none :: R ∧
      kt'.map Prod.snd = kt.map Prod.snd ++ (if cur = [] then [] else [cur]) ∧
      (storeArg (setupStep s P.length) none).inputBuffer = (P ++ [NUL]) ++ tail ∧
      (∀ p ∈ kt', TokAt (P ++ [NUL]) p.1 p.2) ∧
      (storeArg (setupStep s P.length) none).background = bg ∧
      ∃ k0, kt' = kt ++ (if cur = [] then [] else [(k0, cur)]) := by
  obtain ⟨kt', R, ha, hs, hct, hlen, htok, hb, hbuf, hbg, -, hk0⟩ := h.close (by omega)
  have hstep : setupStep s P.length =
      storeArg (storeBuf (closeToken s) P.length NUL) none := by
    simp only [setupStep, h.getD]
    rw [if_neg (by decide), if_pos trivial]
  have hl := hlen
  rw [ha, List.length_append, List.length_map] at hl
  have hRne : R ≠ [] := by
    intro hnil
    rw [hnil] at hl
    simp only [List.length_nil] at hl
    omega
  obtain ⟨r, R', rfl⟩ := List.exists_cons_of_ne_nil hRne
  have hset := set_append_length (kt'.map (fun p => some p.1)) r none R'
  rw [List.length_map] at hset
  have hset2 := set_append_length (kt'.map (fun p => some p.1)) (none : Option Nat) none R'
  rw [List.length_map] at hset2
  refine ⟨kt', R', ?_, hs, ?_, htok, ?_, hk0⟩
  · rw [hstep]
    simp only [storeArg, storeBuf, ha, hct, hset, hset2]
  · rw [hstep]
    simp only [storeArg, storeBuf, hbuf, h.buf, Int.natCast_nonneg, if_true, Int.toNat_ofNat]
    rw [set_append_length]
    simp
  · rw [hstep]
    simp only [storeArg, storeBuf, hbg]
    exact h.bg

theorem ScanInv.amp_step {L : Nat} {bg : Int} {s : SetupState} {P : List Char}
    {tail : List Char} {kt : List (Nat × List Char)}
    (h : ScanInv L bg s (P ++ [NUL]) ('&' :: tail) kt []) :
    ScanInv L 1 (setupStep s (P ++ [NUL]).length) (P ++ [NUL] ++ ['&']) tail kt ['&'] := by
  have hstart : s.start = -1 := by
    rcases h.opn with ⟨-, hs⟩ | ⟨hc, -⟩
    · exact hs
    · exact absurd rfl hc
  have hstep : setupStep s (P ++ [NUL]).length =
      storeBuf { s with start := ((P ++ [NUL]).length : Nat), background := 1 }
        (((P ++ [NUL]).length : Nat) - 1 : Int) NUL := by
    simp only [setupStep, h.getD]
    rw [if_neg (by decide), if_neg (by decide), if_pos hstart, if_pos trivial]
  have hidx : (((P ++ [NUL]).length : Nat) - 1 : Int) = (P.length : Nat) := by
    simp
  have hb := h.bound
  simp only [if_true] at hb
  rw [hstep, hidx]
  exact
    { buf := by
        have e : s.inputBuffer = P ++ NUL :: ('&' :: tail) := by rw [h.buf]; simp
        simp only [storeBuf, e, Int.natCast_nonneg, if_true, Int.toNat_ofNat]
        rw [set_append_length]
        simp
      args := by simpa [storeBuf] using h.args
      ct := by simpa [storeBuf] using h.ct
      len := by simpa [storeBuf] using h.len
      tok := fun p hp => (h.tok p hp).append ['&']
      bound := by simp only [List.length_append, List.length_singleton] at hb ⊢; simp; omega
      opn := Or.inr ⟨by simp, by decide, P ++ [NUL], rfl, by simp [storeBuf]⟩
      bg := by simp [storeBuf] }

theorem setup_bytes_cons (c : Char) (data inputBuffer : List Char) (args : List (Option Nat))
    (bg : Int) :
    setup (.bytes (c :: data)) inputBuffer args bg =
      .returned (storeArg ((List.range (c :: data).length).foldl setupStep
        ⟨(c :: data) ++ inputBuffer.drop (c :: data).length, args, bg, 0, -1, [], []⟩) none) := by
  have h1 : ((((c :: data).length : Nat) : Int) = 0) = False := by
    simp only [List.length_cons, eq_iff_iff, iff_false]
    omega
  have h2 : ((((c :: data).length : Nat) : Int) < 0) = False := by
    simp only [List.length_cons, eq_iff_iff, iff_false]
    omega
  simp only [setup, h1, h2, if_false, false_and, Int.toNat_ofNat]

theorem scanInv_init (data tail : List Char) (args : List (Option Nat)) (bg : Int) :
    ScanInv args.length bg ⟨data ++ tail, args, bg, 0, -1, [], []⟩ [] (data ++ tail) [] [] :=
  { buf := rfl
    args := ⟨args, rfl⟩
    ct := rfl
    len := rfl
    tok := fun p hp => absurd hp (List.not_mem_nil _)
    bound := by simp
    opn := Or.inl ⟨rfl, rfl⟩
    bg := rfl }

/-- The function `setup` on a line without `&` and NUL whose only newline is its last
byte: it returns, the argument strings are the tokens of the specification, a `NULL`
follows them in `args`, and the background flag is untouched. -/
theorem setup_plain_line (body inputBuffer : List Char) (args : List (Option Nat)) (bg : Int)
    (hcap : body.length + 2 ≤ 2 * args.length)
    (hbody : ∀ c ∈ body, c ≠ '\n' ∧ c ≠ '&' ∧ c ≠ NUL) :
    ∃ s, setup (.bytes (body ++ ['\n'])) inputBuffer args bg = .returned s ∧
      argStrings s.inputBuffer s.args = specTokens body ∧
      s.args[(specTokens body).length]? = some none ∧ s.background = bg := by
  obtain ⟨c, data, hcd⟩ : ∃ c data, body ++ ['\n'] = c :: data := by
    cases body with
    | nil => exact ⟨_, _, rfl⟩
    | cons a t => exact ⟨a, t ++ ['\n'], rfl⟩
  have hsetup := setup_bytes_cons c data inputBuffer args bg
  rw [← hcd] at hsetup
  refine ⟨_, hsetup, ?_⟩
  have hlen : (body ++ ['\n']).length = body.length + 1 := by simp
  rw [hlen, List.range_succ, List.foldl_append, List.range_eq_range']
  simp only [List.foldl_cons, List.foldl_nil, List.append_assoc]
  have h0 := scanInv_init body (['\n'] ++ inputBuffer.drop (body.length + 1)) args bg
  obtain ⟨P', kt', cur', hP', hinv, hruns⟩ :=
    ScanInv.scan body hbody _ [] _ [] [] h0 (by simp; omega)
  simp only [List.length_nil, Nat.zero_add, List.map_nil, List.nil_append] at hP' hinv hruns
  obtain ⟨kt2, R, ha, hs, hb, htok, hbg, -⟩ := hinv.newline_final (by omega)
  rw [hP'] at ha hb hbg
  rw [hruns, splitRuns_eq_specTokens] at hs
  rw [ha, hb, hbg]
  refine ⟨?_, ?_, rfl⟩
  · rw [argStrings_of_tokAt _ _ kt2 R htok, hs]
  · rw [← hs, List.length_map]
    have := @List.getElem?_append_right _ (kt2.map (fun p => some p.1))
      (none :: R) kt2.length (by simp)
    rw [this]
    simp

/-! ## The claims on the tokenization of whole lines -/

theorem stripAmpersand_foreground (inputBuffer : List Char) (args : List (Option Nat)) :
    stripAmpersand inputBuffer args 0 = some args := by
  simp [stripAmpersand]

/-- C11: for every input line of at most 80 bytes that has no `&` and no NUL and whose only
newline is its last byte, read into the 41 slots of `args`: `setup` returns, the argument
strings `args[0]`, `args[1]`, ... are exactly the maximal non-empty runs of characters
other than space and tab of the line, in order, a `NULL` follows them, no argument is
empty, and the background flag stays 0, so that `main` goes on with these arguments. -/
theorem setup_tokenizes_plain_line (body inputBuffer : List Char) (args : List (Option Nat))
    (hlen : (body ++ ['\n']).length ≤ MAX_LINE) (hargs : args.length = MAX_LINE / 2 + 1)
    (hnl : '\n' ∉ body) (hamp : '&' ∉ body) (hnul : NUL ∉ body) :
    (∃ s, setup (.bytes (body ++ ['\n'])) inputBuffer args 0 = .returned s ∧
      argStrings s.inputBuffer s.args = specTokens body ∧
      s.args[(specTokens body).length]? = some none ∧ s.background = 0) ∧
    [] ∉ specTokens body ∧
    tokenizeLine (.bytes (body ++ ['\n'])) inputBuffer args = .tokens (specTokens body) 0 := by
  have hbody : ∀ c ∈ body, c ≠ '\n' ∧ c ≠ '&' ∧ c ≠ NUL := by
    intro c hc
    exact ⟨fun e => hnl (e ▸ hc), fun e => hamp (e ▸ hc), fun e => hnul (e ▸ hc)⟩
  have hcap : body.length + 2 ≤ 2 * args.length := by
    simp only [List.length_append, List.length_singleton, MAX_LINE] at hlen
    rw [hargs]
    simp only [MAX_LINE]
    omega
  obtain ⟨s, hs, hstr, hnull, hbg⟩ := setup_plain_line body inputBuffer args 0 hcap hbody
  refine ⟨⟨s, hs, hstr, hnull, hbg⟩, ?_, ?_⟩
  · simp [specTokens]
  · simp only [tokenizeLine, hs, hbg, stripAmpersand_foreground, hstr]

/-- Witness of C11: the line `ls -la` gives the arguments `ls`, `-la` with the background
flag 0, and separators at the start, at the end or repeated give no empty argument. -/
theorem setup_tokenizes_plain_line_witness :
    tokenizeLine (.bytes ("ls -la".toList ++ ['\n'])) exShell.inputBuffer exShell.args =
      .tokens ["ls".toList, "-la".toList] 0 ∧
    tokenizeLine (.bytes ("  ls \t\t-la ".toList ++ ['\n'])) exShell.inputBuffer exShell.args =
      .tokens ["ls".toList, "-la".toList] 0 := by
  have h1 := (setup_tokenizes_plain_line "ls -la".toList exShell.inputBuffer exShell.args
    (by decide) (by decide) (by decide) (by decide) (by decide)).2.2
  have h2 := (setup_tokenizes_plain_line "  ls \t\t-la ".toList exShell.inputBuffer
    exShell.args (by decide) (by decide) (by decide) (by decide) (by decide)).2.2
  have e1 : specTokens "ls -la".toList = ["ls".toList, "-la".toList] := by decide
  have e2 : specTokens "  ls \t\t-la ".toList = ["ls".toList, "-la".toList] := by decide
  rw [e1] at h1
  rw [e2] at h2
  exact ⟨h1, h2⟩

/-- C14, the code at the failing inputs: for a line that is a newline alone, and for a
line of spaces and tabs followed by a newline, the tokenization yields the empty
argument list with the background flag 0, and the iteration of `main` then evaluates
`args[0][i]` with `args[0] == NULL`: it faults instead of going to the next prompt. -/
theorem mainStep_blank_line_faults :
    tokenizeLine (.bytes "\n".toList) exShell.inputBuffer exShell.args = .tokens [] 0 ∧
    mainStep (exEnv "\n".toList 42 100) exShell = .fault ∧
    tokenizeLine (.bytes " \t \n".toList) exShell.inputBuffer exShell.args = .tokens [] 0 ∧
    mainStep (exEnv " \t \n".toList 42 100) exShell = .fault := by
  decide

theorem splitRuns_mem (p : Char → Bool) (suf cur t : List Char)
    (ht : t ∈ splitRuns p cur suf) : t ≠ [] ∧ ∀ c ∈ t, c ∈ cur ∨ c ∈ suf := by
  induction suf generalizing cur with
  | nil =>
    by_cases hcur : cur = []
    · simp [splitRuns, hcur] at ht
    · simp only [splitRuns, hcur, if_false, List.mem_singleton] at ht
      subst ht
      exact ⟨hcur, fun c hc => Or.inl hc⟩
  | cons a as ih =>
    by_cases hp : p a = true
    · have hrec : t ∈ splitRuns p [] as → t ≠ [] ∧ ∀ c ∈ t, c ∈ cur ∨ c ∈ a :: as := by
        intro h
        obtain ⟨h1, h2⟩ := ih [] h
        refine ⟨h1, fun c hc => Or.inr (List.mem_cons_of_mem _ ?_)⟩
        rcases h2 c hc with h3 | h3
        · exact absurd h3 (List.not_mem_nil _)
        · exact h3
      by_cases hcur : cur = []
      · simp only [splitRuns, hp, hcur, if_true] at ht
        exact hrec ht
      · simp only [splitRuns, hp, hcur, if_true, if_false, List.mem_cons] at ht
        rcases ht with rfl | ht
        · exact ⟨hcur, fun c hc => Or.inl hc⟩
        · exact hrec ht
    · simp only [splitRuns, hp] at ht
      obtain ⟨h1, h2⟩ := ih (cur ++ [a]) ht
      refine ⟨h1, fun c hc => ?_⟩
      rcases h2 c hc with h3 | h3
      · rw [List.mem_append, List.mem_singleton] at h3
        rcases h3 with h3 | rfl
        · exact Or.inl h3
        · exact Or.inr (List.mem_cons_self _ _)
      · exact Or.inr (List.mem_cons_of_mem _ h3)

theorem findAmpersand_found (buf : List Char) (kt : List (Nat × List Char)) (ka : Nat)
    (rest : List (Option Nat)) (j : Nat) (hkt : ∀ p ∈ kt, buf.getD p.1 NUL ≠ '&')
    (hka : buf.getD ka NUL = '&') :
    findAmpersand buf (kt.map (fun p => some p.1) ++ some ka :: rest) j =
      some (j + kt.length) := by
  induction kt generalizing j with
  | nil =>
    rw [List.map_nil, List.nil_append, findAmpersand, if_pos hka]
    rfl
  | cons p kt ih =>
    rw [List.map_cons, List.cons_append, findAmpersand,
      if_neg (hkt p (List.mem_cons_self _ _)),
      ih (j + 1) (fun q hq => hkt q (List.mem_cons_of_mem _ hq))]
    simp only [List.length_cons]
    congr 1
    omega

/-- The tokenization of a line without NUL made of a stretch without `&` and newline,
one separator, the character `&` and a newline: the argument strings are the tokens of
the stretch and the background flag is 1. -/
theorem tokenizeLine_background (body inputBuffer : List Char) (args : List (Option Nat))
    (sep : Char) (hsep : sep = ' ' ∨ sep = '\t') (hcap : body.length + 4 ≤ 2 * args.length)
    (hbody : ∀ c ∈ body, c ≠ '\n' ∧ c ≠ '&' ∧ c ≠ NUL) :
    tokenizeLine (.bytes (body ++ [sep, '&', '\n'])) inputBuffer args =
      .tokens (specTokens body) 1 := by
  obtain ⟨c, data, hcd⟩ : ∃ c data, body ++ [sep, '&', '\n'] = c :: data := by
    cases body with
    | nil => exact ⟨_, _, rfl⟩
    | cons a t => exact ⟨a, t ++ [sep, '&', '\n'], rfl⟩
  have hsetup := setup_bytes_cons c data inputBuffer args 0
  rw [← hcd] at hsetup
  have hlen : (body ++ [sep, '&', '\n']).length = body.length + 1 + 1 + 1 := by simp
  rw [hlen, List.range_succ, List.range_succ, List.range_succ, List.foldl_append,
    List.foldl_append, List.foldl_append, List.range_eq_range'] at hsetup
  simp only [List.foldl_cons, List.foldl_nil, List.append_assoc] at hsetup
  have h0 := scanInv_init body (sep :: '&' :: '\n' :: inputBuffer.drop (body.length + 1 + 1 + 1))
    args 0
  obtain ⟨P', kt', cur', hP', hinv, hruns⟩ :=
    ScanInv.scan body hbody _ [] _ [] [] h0 (by simp; omega)
  simp only [List.length_nil, Nat.zero_add, List.map_nil, List.nil_append] at hP' hinv hruns
  obtain ⟨kt1, hinv1, hk1⟩ := hinv.sep_step hsep (by omega)
  rw [hruns, splitRuns_eq_specTokens] at hk1
  have hinv2 := hinv1.amp_step
  have hl2 : (P' ++ [NUL]).length = body.length + 1 := by simp [hP']
  have hl3 : (P' ++ [NUL] ++ ['&']).length = body.length + 1 + 1 := by simp [hP']
  obtain ⟨kt3, R, ha, -, hb, htok, hbg, k0, hk3⟩ := hinv2.newline_final (by rw [hl3]; omega)
  rw [hl3, hl2, hP'] at ha hb hbg
  simp only [List.singleton_append, List.cons_append, List.nil_append] at hsetup
  simp only [reduceCtorEq, if_false] at hk3
  subst hk3
  have hamp : TokAt (P' ++ [NUL] ++ ['&'] ++ [NUL]) k0 ['&'] :=
    htok (k0, ['&']) (by simp)
  have hfirst : ∀ p ∈ kt1, ∀ X : List Char,
      ((P' ++ [NUL] ++ ['&'] ++ [NUL]) ++ X).getD p.1 NUL ≠ '&' := by
    intro p hp X
    have hmem : p.2 ∈ specTokens body := by
      rw [← hk1]
      exact List.mem_map_of_mem Prod.snd hp
    rw [← splitRuns_eq_specTokens] at hmem
    obtain ⟨hne, hchars⟩ := splitRuns_mem isSeparator body [] p.2 hmem
    obtain ⟨a, t, hat⟩ := List.exists_cons_of_ne_nil hne
    have htk : TokAt (P' ++ [NUL] ++ ['&'] ++ [NUL]) p.1 (a :: t) := by
      rw [← hat]
      exact htok p (by simp [hp])
    rw [htk.getD_head X]
    have ha_mem : a ∈ body := by
      rcases hchars a (by rw [hat]; exact List.mem_cons_self _ _) with h | h
      · exact absurd h (List.not_mem_nil _)
      · exact h
    exact (hbody a ha_mem).2.1
  have hfind := findAmpersand_found
    ((P' ++ [NUL] ++ ['&'] ++ [NUL]) ++ inputBuffer.drop (body.length + 1 + 1 + 1)) kt1 k0
    (none :: R) 0 (fun p hp => hfirst p hp _) (hamp.getD_head _)
  have hargs2 : (kt1 ++ [(k0, ['&'])]).map (fun p => some p.1) ++ none :: R =
      kt1.map (fun p => some p.1) ++ some k0 :: none :: R := by simp
  have hset := set_append_length (kt1.map (fun p => some p.1)) (some k0) none (none :: R)
  rw [List.length_map] at hset
  unfold tokenizeLine
  rw [hsetup]
  simp only [Nat.add_assoc, Nat.reduceAdd] at ha hb hbg hfind ⊢
  simp only [stripAmpersand, ha, hb, hbg, hargs2, hfind, Nat.zero_add, Option.map_some', hset]
  rw [if_pos (by decide)]
  simp only []
  rw [argStrings_of_tokAt _ _ kt1 (none :: R)
    (fun p hp => htok p (by simp [hp])), hk1]

/-- C12: for every input line of at most 80 bytes, without NUL, that is a stretch without
`&` and newline, then one space or tab, then the character `&` and the closing newline,
read into the 41 slots of `args`: the tokenization (`setup` and then the block of `main`
that clears the `&` slot) yields the tokens of the stretch, in order and unaltered, with
the background flag 1. -/
theorem tokenizeLine_trailing_ampersand (body inputBuffer : List Char)
    (args : List (Option Nat)) (sep : Char) (hsep : sep = ' ' ∨ sep = '\t')
    (hlen : (body ++ [sep, '&', '\n']).length ≤ MAX_LINE)
    (hargs : args.length = MAX_LINE / 2 + 1)
    (hnl : '\n' ∉ body) (hamp : '&' ∉ body) (hnul : NUL ∉ body) :
    tokenizeLine (.bytes (body ++ [sep, '&', '\n'])) inputBuffer args =
      .tokens (specTokens body) 1 := by
  have hbody : ∀ c ∈ body, c ≠ '\n' ∧ c ≠ '&' ∧ c ≠ NUL := by
    intro c hc
    exact ⟨fun e => hnl (e ▸ hc), fun e => hamp (e ▸ hc), fun e => hnul (e ▸ hc)⟩
  have hcap : body.length + 4 ≤ 2 * args.length := by
    simp only [List.length_append, List.length_cons, List.length_nil, MAX_LINE] at hlen
    rw [hargs]
    simp only [MAX_LINE]
    omega
  exact tokenizeLine_background body inputBuffer args sep hsep hcap hbody

/-- Witness of C12: the line `sleep 5 &` gives the arguments `sleep`, `5` with the
background flag 1. -/
theorem tokenizeLine_trailing_ampersand_witness :
    tokenizeLine (.bytes ("sleep 5".toList ++ [' ', '&', '\n'])) exShell.inputBuffer
      exShell.args = .tokens ["sleep".toList, "5".toList] 1 := by
  have h := tokenizeLine_trailing_ampersand "sleep 5".toList exShell.inputBuffer exShell.args
    ' ' (Or.inl rfl) (by decide) (by decide) (by decide) (by decide) (by decide)
  have e : specTokens "sleep 5".toList = ["sleep".toList, "5".toList] := by decide
  rw [e] at h
  exact h

/-! ## The fate of the program after `setup` returns without arguments -/

/-- C15, the code at the failing inputs.  With 0 bytes read the program exits with
status 0, and when `read` fails with an `errno` other than `EINTR` it exits with status
-1, as the claim says.  When `read` fails with `EINTR`, and when it delivers an empty
line, `setup` returns with `args[0] == NULL`; `main` then evaluates `args[0][i]` and the
program faults instead of going on to the next prompt. -/
theorem mainStep_interrupted_read_faults :
    mainStep ⟨.bytes [], some "/usr/bin:/bin".toList, exReaddir, 42, ⟨7, 0, []⟩, 100,
      allRunning, exMem⟩ exShell = .exited 0 ∧
    mainStep ⟨.fail 5, some "/usr/bin:/bin".toList, exReaddir, 42, ⟨7, 0, []⟩, 100,
      allRunning, exMem⟩ exShell = .exited (-1) ∧
    setup (.fail EINTR) exShell.inputBuffer exShell.args 0 =
      .returned ⟨exShell.inputBuffer, exShell.args.set 0 none, 0, 0, -1, [], [0]⟩ ∧
    mainStep ⟨.fail EINTR, some "/usr/bin:/bin".toList, exReaddir, 42, ⟨7, 0, []⟩, 100,
      allRunning, exMem⟩ exShell = .fault ∧
    mainStep ⟨.bytes ['\n'], some "/usr/bin:/bin".toList, exReaddir, 42, ⟨7, 0, []⟩, 100,
      allRunning, exMem⟩ exShell = .fault := by
  decide

end MainSetup
